import Mathlib

/-!
# Verification of the gostc static-file server core

Shallow embedding of the gostc repository's cache, asset-versioning,
HTML-rewriting, compression-negotiation and serve-pipeline code, together
with proofs and refutations of the specification's claims about them.

Strings are modelled as `List Char` (Go strings are byte strings; all the
inputs exercised here are ASCII, for which the two views coincide), byte
slices as `List Nat` with every element `< 256`, `int64` as `Int`, and
`time.Time`/`time.Duration` as `Nat` instants passed explicitly to the
operations that read the clock.
-/

namespace Gostc

abbrev Str := List Char

/-- `strings.HasPrefix(s, pre)`. -/
def hasPrefix (pre s : Str) : Bool :=
  match pre, s with
  | [], _ => true
  | _ :: _, [] => false
  | p :: ps, c :: cs => p = c && hasPrefix ps cs

/-- `strings.HasSuffix(s, suf)`. -/
def hasSuffix (suf s : Str) : Bool :=
  hasPrefix suf.reverse s.reverse

/-- `strings.Contains(s, sub)`. -/
def strContains (s sub : Str) : Bool :=
  match s with
  | [] => hasPrefix sub []
  | _ :: cs => hasPrefix sub s || strContains cs sub

/-- ASCII lowering, the fragment of `strings.ToLower` exercised by the
    inputs in this development. -/
def lowerChar (c : Char) : Char :=
  if 'A' ≤ c ∧ c ≤ 'Z' then Char.ofNat (c.toNat + 32) else c

def toLowerStr (s : Str) : Str := s.map lowerChar

/-- `strings.TrimSuffix(s, suf)`. -/
def trimSuffix (s suf : Str) : Str :=
  if hasSuffix suf s then s.take (s.length - suf.length) else s

/-- `filepath.Ext(path)`: the suffix starting at the final dot in the final
    slash-separated element; empty when there is no dot. -/
def filepathExt (p : Str) : Str :=
  match p.reverse.findIdx? (fun c => c = '.' ∨ c = '/') with
  | some i =>
      if p.reverse.get? i = some '.' then p.drop (p.length - 1 - i) else []
  | none => []

/-- `filepath.Base(path)` on a slash-separated path. -/
def filepathBase (p : Str) : Str :=
  if p = [] then ['.']
  else
    let q := p.reverse.dropWhile (· = '/')
    if q = [] then ['/']
    else (q.takeWhile (· ≠ '/')).reverse

/-- `strings.Split(s, sep)` for a one-character separator. -/
def splitOnChar (s : Str) (sep : Char) : List Str :=
  match s with
  | [] => [[]]
  | c :: cs =>
      let rest := splitOnChar cs sep
      if c = sep then [] :: rest
      else match rest with
           | [] => [[c]]
           | r :: rs => (c :: r) :: rs

/-- Decimal rendering of a natural number, as produced by `fmt.Sprintf("%d", n)`. -/
def natToDec (n : Nat) : Str :=
  (Nat.toDigits 10 n)

end Gostc

namespace Gostc.SHA256

/-! ## SHA-256 (FIPS 180-4), as used via `crypto/sha256`.
Words are `Nat` values kept below `2^32`; bytes are `Nat` values below 256. -/

def M32 : Nat := 4294967296

def add32 (a b : Nat) : Nat := (a + b) % M32

def xor32 (a b : Nat) : Nat := a.xor b

def and32 (a b : Nat) : Nat := a.land b

def not32 (a : Nat) : Nat := a.xor (M32 - 1)

def shr32 (a n : Nat) : Nat := a >>> n

def rotr32 (a n : Nat) : Nat := (a >>> n).lor ((a <<< (32 - n)) % M32)

def ch (x y z : Nat) : Nat := xor32 (and32 x y) (and32 (not32 x) z)

def maj (x y z : Nat) : Nat := xor32 (xor32 (and32 x y) (and32 x z)) (and32 y z)

def bsig0 (x : Nat) : Nat := xor32 (xor32 (rotr32 x 2) (rotr32 x 13)) (rotr32 x 22)

def bsig1 (x : Nat) : Nat := xor32 (xor32 (rotr32 x 6) (rotr32 x 11)) (rotr32 x 25)

def ssig0 (x : Nat) : Nat := xor32 (xor32 (rotr32 x 7) (rotr32 x 18)) (shr32 x 3)

def ssig1 (x : Nat) : Nat := xor32 (xor32 (rotr32 x 17) (rotr32 x 19)) (shr32 x 10)

def K : List Nat :=
  [1116352408, 1899447441, 3049323471, 3921009573, 961987163, 1508970993, 2453635748, 2870763221,
   3624381080, 310598401, 607225278, 1426881987, 1925078388, 2162078206, 2614888103, 3248222580,
   3835390401, 4022224774, 264347078, 604807628, 770255983, 1249150122, 1555081692, 1996064986,
   2554220882, 2821834349, 2952996808, 3210313671, 3336571891, 3584528711, 113926993, 338241895,
   666307205, 773529912, 1294757372, 1396182291, 1695183700, 1986661051, 2177026350, 2456956037,
   2730485921, 2820302411, 3259730800, 3345764771, 3516065817, 3600352804, 4094571909, 275423344,
   430227734, 506948616, 659060556, 883997877, 958139571, 1322822218, 1537002063, 1747873779,
   1955562222, 2024104815, 2227730452, 2361852424, 2428436474, 2756734187, 3204031479, 3329325298]

/-- The eight-word working state. -/
structure HS where
  a : Nat
  b : Nat
  c : Nat
  d : Nat
  e : Nat
  f : Nat
  g : Nat
  h : Nat
deriving Repr, DecidableEq

def H0 : HS :=
  ⟨1779033703, 3144134277, 1013904242, 2773480762, 1359893119, 2600822924, 528734635, 1541459225⟩

/-- One compression round for round constant `k` and schedule word `w`. -/
def round1 (s : HS) (k w : Nat) : HS :=
  let t1 := add32 (add32 (add32 (add32 s.h (bsig1 s.e)) (ch s.e s.f s.g)) k) w
  let t2 := add32 (bsig0 s.a) (maj s.a s.b s.c)
  ⟨add32 t1 t2, s.a, s.b, s.c, add32 s.d t1, s.e, s.f, s.g⟩

/-- Extend a 16-word block to the full 64-word message schedule.
    `acc` holds the words produced so far in reverse order. -/
def extendW : Nat → List Nat → List Nat
  | 0, acc => acc.reverse
  | n + 1, acc =>
      let w2 := acc.getD 1 0
      let w7 := acc.getD 6 0
      let w15 := acc.getD 14 0
      let w16 := acc.getD 15 0
      extendW n (add32 (add32 (add32 (ssig1 w2) w7) (ssig0 w15)) w16 :: acc)

def schedule (block : List Nat) : List Nat := extendW 48 block.reverse

def compress (s : HS) (block : List Nat) : HS :=
  let t := ((K.zip (schedule block)).foldl (fun st kw => round1 st kw.1 kw.2) s)
  ⟨add32 s.a t.a, add32 s.b t.b, add32 s.c t.c, add32 s.d t.d,
   add32 s.e t.e, add32 s.f t.f, add32 s.g t.g, add32 s.h t.h⟩

/-- FIPS 180-4 §5.1.1 padding over a byte message. -/
def pad (msg : List Nat) : List Nat :=
  let l := msg.length
  let zeros := (55 + 64 - l % 64) % 64
  let bitLen := l * 8
  msg ++ [128] ++ List.replicate zeros 0 ++
    [(bitLen >>> 56) % 256, (bitLen >>> 48) % 256, (bitLen >>> 40) % 256, (bitLen >>> 32) % 256,
     (bitLen >>> 24) % 256, (bitLen >>> 16) % 256, (bitLen >>> 8) % 256, bitLen % 256]

/-- Split a padded byte string into 16-word big-endian blocks; structural
    recursion on a fuel argument so that the kernel can evaluate it. -/
def toBlocksF : Nat → List Nat → List (List Nat)
  | 0, _ => []
  | _, [] => []
  | fuel + 1, b :: bs =>
      let blk := (b :: bs).take 64
      let words := (List.range 16).map fun i =>
        (blk.getD (4*i) 0) <<< 24 + (blk.getD (4*i+1) 0) <<< 16 +
        (blk.getD (4*i+2) 0) <<< 8 + blk.getD (4*i+3) 0
      words :: toBlocksF fuel (bs.drop 63)

def toBlocks (bs : List Nat) : List (List Nat) := toBlocksF bs.length bs

def wordBytes (w : Nat) : List Nat :=
  [(w >>> 24) % 256, (w >>> 16) % 256, (w >>> 8) % 256, w % 256]

/-- SHA-256 digest of a byte string: 32 bytes. -/
def sha256 (msg : List Nat) : List Nat :=
  let fin := (toBlocks (pad msg)).foldl compress H0
  wordBytes fin.a ++ wordBytes fin.b ++ wordBytes fin.c ++ wordBytes fin.d ++
  wordBytes fin.e ++ wordBytes fin.f ++ wordBytes fin.g ++ wordBytes fin.h

def hexDigit (n : Nat) : Char :=
  if n < 10 then Char.ofNat (48 + n) else Char.ofNat (87 + n)

/-- `hex.EncodeToString` over a byte string. -/
def hexEncode (bs : List Nat) : Str :=
  bs.flatMap fun b => [hexDigit (b / 16), hexDigit (b % 16)]

end Gostc.SHA256

namespace Gostc

open Gostc.SHA256

/-! ## Association-list model of Go maps (`map[string]string`).
Only lookup and assignment are exercised by the embedded code. -/

abbrev StrMap := List (Str × Str)

/-- Go map assignment `m[k] = v`. -/
def mapInsert (m : StrMap) (k v : Str) : StrMap :=
  (k, v) :: m.filter (fun p => p.1 ≠ k)

/-- Go map lookup `m[k]` with its `ok` flag folded into `Option`. -/
def mapLookup (m : StrMap) (k : Str) : Option Str :=
  (m.find? (fun p => p.1 = k)).map (·.2)

/-! ## Asset version manager (`AssetVersionManager`). -/

/-- `strings.ReplaceAll(s, old, new)` for nonempty `old` (the only use sites
    pass the literal placeholders `{base}`, `{hash}`, `{ext}`). -/
def replaceAll (s pat rep : Str) : Str :=
  match s with
  | [] => []
  | c :: cs =>
      if pat ≠ [] ∧ hasPrefix pat (c :: cs) then
        rep ++ replaceAll ((c :: cs).drop pat.length) pat rep
      else
        c :: replaceAll cs pat rep
termination_by s.length
decreasing_by
  all_goals simp [List.length_drop]
  all_goals rename_i h
  all_goals cases pat with
  | nil => exact absurd rfl h.1
  | cons p ps => simp

/-- The state of an `AssetVersionManager` together with the configuration
    fields it reads. -/
structure AVM where
  versionedPaths : StrMap
  originalPaths : StrMap
  contentHashes : StrMap
  hashLength : Nat
  versioningPattern : Str
  enableVersioning : Bool
  staticPrefixes : List Str
deriving Repr

/-- `NewAssetVersionManager`: empty maps; hash length defaults to 16 when the
    configured value is not positive. -/
def newAVM (cfgHashLength : Nat) (pattern : Str) (enable : Bool) (prefixes : List Str) : AVM :=
  { versionedPaths := [], originalPaths := [], contentHashes := [],
    hashLength := if cfgHashLength > 0 then cfgHashLength else 16,
    versioningPattern := pattern, enableVersioning := enable,
    staticPrefixes := prefixes }

/-- `AssetVersionManager.GenerateVersionedPath`: truncated hex SHA-256 of the
    content, spliced into the path by the configured pattern, or by
    `base.hash.ext` when no pattern is set. -/
def generateVersionedPath (avm : AVM) (originalPath : Str) (content : List Nat) :
    Str × Str :=
  let versionHash := hexEncode ((sha256 content).take (avm.hashLength / 2))
  let ext := filepathExt originalPath
  let base := trimSuffix originalPath ext
  let versionedPath :=
    if avm.versioningPattern ≠ [] then
      replaceAll (replaceAll (replaceAll avm.versioningPattern
        ('{' :: "base".toList ++ ['}']) base)
        ('{' :: "hash".toList ++ ['}']) versionHash)
        ('{' :: "ext".toList ++ ['}']) ext
    else
      base ++ '.' :: versionHash ++ ext
  (versionedPath, versionHash)

/-- `AssetVersionManager.RegisterAsset` (the variant without a URL prefix,
    src/unnamed/part_009 lines 1042–1051). -/
def registerAsset (avm : AVM) (originalPath : Str) (content : List Nat) : AVM :=
  let vh := generateVersionedPath avm originalPath content
  { avm with
    versionedPaths := mapInsert avm.versionedPaths originalPath vh.1,
    originalPaths := mapInsert avm.originalPaths vh.1 originalPath,
    contentHashes := mapInsert avm.contentHashes originalPath vh.2 }

def getVersionedPath (avm : AVM) (originalPath : Str) : Option Str :=
  mapLookup avm.versionedPaths originalPath

def getOriginalPath (avm : AVM) (versionedPath : Str) : Option Str :=
  mapLookup avm.originalPaths versionedPath

def getContentHash (avm : AVM) (path : Str) : Option Str :=
  mapLookup avm.contentHashes path

def isVersionedPath (avm : AVM) (path : Str) : Bool :=
  (mapLookup avm.originalPaths path).isSome

/-- `AssetVersionManager.isVersionableExtension`. -/
def isVersionableExtension (path : Str) : Bool :=
  let ext := toLowerStr (filepathExt path)
  [".css", ".js", ".mjs",
   ".png", ".jpg", ".jpeg", ".gif", ".svg", ".webp", ".ico",
   ".woff", ".woff2", ".ttf", ".otf", ".eot"].any
    (fun e => ext = e.toList)

/-- `AssetVersionManager.shouldVersionFile`: the configured prefixes,
    defaulted when empty, gate the versionable-extension test. -/
def shouldVersionFile (avm : AVM) (path : Str) : Bool :=
  let prefixes :=
    if avm.staticPrefixes = [] then
      ["/static/", "/assets/", "/dist/", "/build/"].map String.toList
    else avm.staticPrefixes
  prefixes.any fun pre => hasPrefix pre path && isVersionableExtension path

/-- `generateETag` (src/unnamed/part_001): quoted hex of the first 16 bytes
    of the SHA-256 of the data. -/
def generateETag (data : List Nat) : Str :=
  '"' :: hexEncode ((sha256 data).take 16) ++ ['"']

end Gostc

namespace Gostc

/-! ## HTML rewriter (`HTMLProcessor.ProcessHTML`).

The link pattern `(href|src)="([^"]*\.(css|js|mjs|png|jpg|jpeg|gif|svg|webp|
ico|woff|woff2|ttf|otf))"[^>]*>` is embedded as a direct matcher.  Because the
literal `"` follows the capture group, the group always extends exactly to the
next quote, and because the extension alternatives contain no dot, the group
must end in a dot followed by one of the alternatives; `[^>]*>` then extends
to the first `>` after the closing quote.  `ReplaceAllStringFunc` repeatedly
takes the leftmost match and resumes after its end. -/

/-- The extension alternation of the link pattern. -/
def regexExts : List Str :=
  [['c','s','s'], ['j','s'], ['m','j','s'], ['p','n','g'], ['j','p','g'],
   ['j','p','e','g'], ['g','i','f'], ['s','v','g'], ['w','e','b','p'],
   ['i','c','o'], ['w','o','f','f'], ['w','o','f','f','2'], ['t','t','f'],
   ['o','t','f']]

/-- Whether a URL ends in `.` followed by one of the pattern's extensions. -/
def hasRegexExt (url : Str) : Bool :=
  regexExts.any fun e => hasSuffix ('.' :: e) url

/-- A decomposed match of the link pattern:
    the match text is `attr="url"gap>` and `rest` is the remainder. -/
structure HMatch where
  attr : Str
  url : Str
  gap : Str
  rest : Str
deriving Repr, DecidableEq

/-- Attempt to match the link pattern at the start of `s` for a fixed
    attribute alternative.  The URL group is maximal, so when anything
    follows it, that character is exactly the closing `"`; likewise the
    character after the `[^>]*` run, when present, is exactly `>`. -/
def tryAttr (attr : Str) (s : Str) : Option HMatch :=
  if hasPrefix (attr ++ ['=', '"']) s then
    let s1 := s.drop (attr.length + 2)
    let url := s1.takeWhile (· ≠ '"')
    match s1.drop url.length with
    | [] => none
    | _ :: s3 =>
        if hasRegexExt url then
          let gap := s3.takeWhile (· ≠ '>')
          match s3.drop gap.length with
          | [] => none
          | _ :: rest => some ⟨attr, url, gap, rest⟩
        else none
  else none

/-- Match of the link pattern anchored at the start of `s`; `href` is the
    first alternative of the pattern. -/
def matchAt (s : Str) : Option HMatch :=
  match tryAttr "href".toList s with
  | some m => some m
  | none => tryAttr "src".toList s

/-- The text of a match (`FindStringSubmatch`'s group 0). -/
def matchText (m : HMatch) : Str :=
  m.attr ++ '=' :: '"' :: m.url ++ '"' :: m.gap ++ ['>']

/-- `linkPattern.FindStringSubmatch`, reduced to the two submatches the code
    reads: the attribute name and the URL of the leftmost match. -/
def findSubmatch : Str → Option (Str × Str)
  | [] => none
  | c :: cs =>
      match matchAt (c :: cs) with
      | some m => some (m.attr, m.url)
      | none => findSubmatch cs

/-- `strings.Replace(s, pat, rep, 1)`. -/
def strReplaceFirst (s pat rep : Str) : Str :=
  match s with
  | [] => if hasPrefix pat [] then rep else []
  | c :: cs =>
      if hasPrefix pat (c :: cs) then rep ++ (c :: cs).drop pat.length
      else c :: strReplaceFirst cs pat rep

/-- `HTMLProcessor.processAssetReference`: re-parse the match text, look the
    URL up in the version index, and substitute the first occurrence of
    `attr="url"` when it resolves. -/
def processAssetReference (vp : StrMap) (mtext : Str) : Str :=
  match findSubmatch mtext with
  | none => mtext
  | some au =>
      match mapLookup vp au.2 with
      | some v =>
          strReplaceFirst mtext (au.1 ++ '=' :: '"' :: au.2 ++ ['"'])
            (au.1 ++ '=' :: '"' :: v ++ ['"'])
      | none => mtext

/-- `linkPattern.ReplaceAllStringFunc(s, processAssetReference)`: rewrite each
    successive leftmost match and resume after it.  Structural recursion on a
    fuel argument (any fuel ≥ `s.length` gives the same result). -/
def replaceLoopF (vp : StrMap) : Nat → Str → Str
  | 0, s => s
  | _ + 1, [] => []
  | fuel + 1, c :: cs =>
      match matchAt (c :: cs) with
      | some m => processAssetReference vp (matchText m) ++ replaceLoopF vp fuel m.rest
      | none => c :: replaceLoopF vp fuel cs

def replaceAllFunc (vp : StrMap) (s : Str) : Str := replaceLoopF vp s.length s

/-- `HTMLProcessor.ProcessHTML` (src/unnamed/part_009 lines 1161–1173): a
    no-op when versioning is disabled, otherwise the pattern-driven rewrite.
    The base path is used only for logging. -/
def processHTML (avm : AVM) (content : Str) (_basePath : Str) : Str :=
  if !avm.enableVersioning then content
  else replaceAllFunc avm.versionedPaths content

end Gostc

namespace Gostc

/-! ## Cache data model (src/unnamed/part_002).

`CompressionType` is a Go `int` bit set: `NoCompression = 0`, `Gzip = 2`,
`Brotli = 4` (config.go).  The cache key carries the `IsVersioned`
discriminator used by the serve pipeline (the spec names this richer variant
as authoritative).  Entry sizes and the byte accounting are Go `int64`,
modelled as `Int`; clock reads are explicit `Nat` instants. -/

abbrev CompressionType := Nat

def NoCompression : CompressionType := 0
def Gzip : CompressionType := 2
def Brotli : CompressionType := 4

structure CacheKey where
  path : Str
  compression : CompressionType
  isVersioned : Bool
deriving Repr, DecidableEq

structure CacheEntry where
  data : List Nat
  contentType : Str
  etag : Str
  lastModified : Nat
  createdAt : Nat
  accessCount : Int
  size : Int
deriving Repr, DecidableEq

structure CacheStats where
  hits : Int := 0
  misses : Int := 0
  evictions : Int := 0
  size : Int := 0
  itemCount : Nat := 0
deriving Repr, DecidableEq

/-! ### LRU cache.

The wrapped `hashicorp/golang-lru` cache is modelled as a list of
key–entry pairs in recency order, most-recently-used first, with the
library's fixed capacity of 1000 entries and an eviction callback that does
nothing.  `Get` and `Add` move the key to the front; `RemoveOldest` drops
the last element. -/

def lruCapacity : Nat := 1000

abbrev LRUItems := List (CacheKey × CacheEntry)

def lruLookup (items : LRUItems) (k : CacheKey) : Option CacheEntry :=
  (items.find? (fun p => p.1 = k)).map (·.2)

def lruErase (items : LRUItems) (k : CacheKey) : LRUItems :=
  items.filter (fun p => p.1 ≠ k)

/-- `lru.Cache.Add`: insert or update at most-recent position, then drop the
    oldest entry if the capacity is exceeded (the `Set` caller ignores the
    eviction callback, which is a no-op). -/
def lruAdd (items : LRUItems) (k : CacheKey) (v : CacheEntry) : LRUItems :=
  let its := (k, v) :: lruErase items k
  if its.length > lruCapacity then its.dropLast else its

structure LRUCache where
  items : LRUItems
  maxSize : Int
  currentSize : Int
  ttl : Nat
  stats : CacheStats
deriving Repr

/-- `NewLRUCache` (ignoring the background sweeper goroutine). -/
def newLRUCache (maxSize : Int) (ttl : Nat) : LRUCache :=
  { items := [], maxSize := maxSize, currentSize := 0, ttl := ttl, stats := {} }

/-- `LRUCache.evictToSize`: remove the oldest entry while the accounted size
    exceeds the target and entries remain.  The loop body never updates
    `currentSize` (the eviction callback is empty), so it runs until the
    cache is empty whenever it runs at all.  Each round removes exactly one
    entry, so fuel equal to the item count always suffices. -/
def evictToSizeF (target : Int) : Nat → LRUCache → LRUCache
  | 0, c => c
  | fuel + 1, c =>
      match c.items with
      | [] => c
      | _ :: _ =>
          if c.currentSize > target then
            evictToSizeF target fuel
              { c with items := c.items.dropLast,
                       stats := { c.stats with evictions := c.stats.evictions + 1 } }
          else c

def evictToSize (c : LRUCache) (target : Int) : LRUCache :=
  evictToSizeF target c.items.length c

/-- `LRUCache.Set` at clock instant `now`. -/
def lruSet (c : LRUCache) (key : CacheKey) (entry : CacheEntry) (now : Nat) : LRUCache :=
  let c := if c.currentSize + entry.size > c.maxSize
           then evictToSize c (c.maxSize - entry.size) else c
  -- c.cache.Get inside Set also promotes the key when present.
  let c := match lruLookup c.items key with
           | some old => { c with currentSize := c.currentSize - old.size,
                                  items := (key, old) :: lruErase c.items key }
           | none => c
  let e := { entry with createdAt := now }
  { c with items := lruAdd c.items key e, currentSize := c.currentSize + entry.size }

/-- `LRUCache.Get` at clock instant `now`: expired entries are removed and
    counted as misses; hits bump the shared entry's access count and promote
    the key. -/
def lruGet (c : LRUCache) (key : CacheKey) (now : Nat) :
    Option CacheEntry × LRUCache :=
  match lruLookup c.items key with
  | none =>
      (none, { c with stats := { c.stats with misses := c.stats.misses + 1 } })
  | some e =>
      if now - e.createdAt > c.ttl then
        (none, { c with items := lruErase c.items key,
                        currentSize := c.currentSize - e.size,
                        stats := { c.stats with misses := c.stats.misses + 1 } })
      else
        let e' := { e with accessCount := e.accessCount + 1 }
        (some e', { c with items := (key, e') :: lruErase c.items key,
                           stats := { c.stats with hits := c.stats.hits + 1 } })

/-- `LRUCache.Delete`. -/
def lruDelete (c : LRUCache) (key : CacheKey) : LRUCache :=
  match lruLookup c.items key with
  | some e => { c with items := lruErase c.items key,
                       currentSize := c.currentSize - e.size }
  | none => c

/-- `LRUCache.Stats`. -/
def lruStats (c : LRUCache) : CacheStats :=
  { c.stats with size := c.currentSize, itemCount := c.items.length }

/-- The sum of the sizes of the entries actually stored. -/
def storedSizeSum (items : LRUItems) : Int :=
  (items.map (fun p => p.2.size)).sum

end Gostc

namespace Gostc

/-! ### LFU cache.

`container/heap` over the `minHeap` slice of `*lfuEntry`, ordered by
frequency.  The slice is the single source of truth here: the `items` map is
always kept in sync with the heap by the code, so map lookups are modelled as
key searches over the slice, and the `index` field of an item is its slice
position. -/

structure LFUItem where
  key : CacheKey
  entry : CacheEntry
  freq : Int
deriving Repr, DecidableEq

abbrev LFUHeap := List LFUItem

/-- `minHeap.Less i j` (false out of range; all real calls are in range). -/
def lessF (a : LFUHeap) (i j : Nat) : Bool :=
  match a.get? i, a.get? j with
  | some x, some y => x.freq < y.freq
  | _, _ => false

/-- `minHeap.Swap`. -/
def swapL (a : LFUHeap) (i j : Nat) : LFUHeap :=
  match a.get? i, a.get? j with
  | some x, some y => (a.set i y).set j x
  | _, _ => a

/-- `container/heap.down(h, i, n)`: sift down within the first `n` items,
    returning the new slice and the final index.  The child index at least
    doubles each iteration, so `n` steps of fuel always suffice. -/
def downAux (a : LFUHeap) (i n : Nat) : Nat → LFUHeap × Nat
  | 0 => (a, i)
  | fuel + 1 =>
      let j1 := 2 * i + 1
      if j1 ≥ n then (a, i)
      else
        let j := if j1 + 1 < n ∧ lessF a (j1 + 1) j1 then j1 + 1 else j1
        if lessF a j i then downAux (swapL a i j) j n fuel else (a, i)

/-- `container/heap.up(h, j)`: sift up; the index strictly decreases, so `j`
    steps of fuel always suffice. -/
def upAux (a : LFUHeap) (j : Nat) : Nat → LFUHeap
  | 0 => a
  | fuel + 1 =>
      let i := (j - 1) / 2
      if i = j ∨ ¬ lessF a j i then a
      else upAux (swapL a i j) i fuel

/-- `heap.Push`. -/
def heapPush (a : LFUHeap) (x : LFUItem) : LFUHeap :=
  upAux (a ++ [x]) a.length a.length

/-- `heap.Pop`: move the root to the back, sift down the first `n` items, and
    split off the last element.  Only called on nonempty heaps. -/
def heapPop (a : LFUHeap) : Option LFUItem × LFUHeap :=
  let n := a.length - 1
  let a1 := swapL a 0 n
  let a2 := (downAux a1 0 n n).1
  (a2.getLast?, a2.dropLast)

/-- `heap.Fix(h, i)`. -/
def heapFix (a : LFUHeap) (i : Nat) : LFUHeap :=
  let d := downAux a i a.length a.length
  if d.2 > i then d.1 else upAux d.1 i i

/-- `heap.Remove(h, i)`. -/
def heapRemove (a : LFUHeap) (i : Nat) : Option LFUItem × LFUHeap :=
  let n := a.length - 1
  if n ≠ i then
    let a1 := swapL a i n
    let d := downAux a1 i n n
    let a2 := if d.2 > i then d.1 else upAux d.1 i i
    (a2.getLast?, a2.dropLast)
  else (a.getLast?, a.dropLast)

structure LFUCache where
  heap : LFUHeap
  maxSize : Int
  currentSize : Int
  ttl : Nat
  stats : CacheStats
deriving Repr

/-- `NewLFUCache` (ignoring the background sweeper goroutine). -/
def newLFUCache (maxSize : Int) (ttl : Nat) : LFUCache :=
  { heap := [], maxSize := maxSize, currentSize := 0, ttl := ttl, stats := {} }

/-- `items[key]` lookup: position of the unique item with the key. -/
def lfuFindIdx (a : LFUHeap) (key : CacheKey) : Option Nat :=
  a.findIdx? (fun it => it.key = key)

/-- `LFUCache.evictLFU`. -/
def evictLFU (c : LFUCache) : LFUCache :=
  if c.heap.length = 0 then c
  else
    let r := heapPop c.heap
    match r.1 with
    | some item =>
        { c with heap := r.2,
                 currentSize := c.currentSize - item.entry.size,
                 stats := { c.stats with evictions := c.stats.evictions + 1 } }
    | none => { c with heap := r.2 }

/-- The eviction loop of `LFUCache.Set`: `heap.Pop` removes exactly one item
    per round, so fuel equal to the heap size always suffices. -/
def lfuEvictLoopF (sz : Int) : Nat → LFUCache → LFUCache
  | 0, c => c
  | fuel + 1, c =>
      if c.currentSize + sz > c.maxSize ∧ c.heap.length > 0 then
        lfuEvictLoopF sz fuel (evictLFU c)
      else c

def lfuEvictLoop (c : LFUCache) (sz : Int) : LFUCache :=
  lfuEvictLoopF sz c.heap.length c

/-- `LFUCache.Set` at clock instant `now`. -/
def lfuSet (c : LFUCache) (key : CacheKey) (entry : CacheEntry) (now : Nat) :
    LFUCache :=
  let e := { entry with createdAt := now }
  match lfuFindIdx c.heap key with
  | some i =>
      match c.heap.get? i with
      | some old =>
          let item' := { old with entry := e, freq := old.freq + 1 }
          { c with heap := heapFix (c.heap.set i item') i,
                   currentSize := c.currentSize - old.entry.size + entry.size }
      | none => c
  | none =>
      let c := lfuEvictLoop c entry.size
      { c with heap := heapPush c.heap ⟨key, e, 1⟩,
               currentSize := c.currentSize + entry.size }

/-- `LFUCache.Get` at clock instant `now`. -/
def lfuGet (c : LFUCache) (key : CacheKey) (now : Nat) :
    Option CacheEntry × LFUCache :=
  match lfuFindIdx c.heap key with
  | some i =>
      match c.heap.get? i with
      | some item =>
          if now - item.entry.createdAt > c.ttl then
            let r := heapRemove c.heap i
            (none, { c with heap := r.2,
                            currentSize := c.currentSize - item.entry.size,
                            stats := { c.stats with misses := c.stats.misses + 1 } })
          else
            let item' := { item with freq := item.freq + 1 }
            (some item'.entry,
             { c with heap := heapFix (c.heap.set i item') i,
                      stats := { c.stats with hits := c.stats.hits + 1 } })
      | none => (none, c)
  | none =>
      (none, { c with stats := { c.stats with misses := c.stats.misses + 1 } })

/-- `LFUCache.Delete` (`removeItem`). -/
def lfuDelete (c : LFUCache) (key : CacheKey) : LFUCache :=
  match lfuFindIdx c.heap key with
  | some i =>
      match c.heap.get? i with
      | some item =>
          let r := heapRemove c.heap i
          { c with heap := r.2, currentSize := c.currentSize - item.entry.size }
      | none => c
  | none => c

/-- `LFUCache.Stats`. -/
def lfuStats (c : LFUCache) : CacheStats :=
  { c.stats with size := c.currentSize, itemCount := c.heap.length }

/-- The sum of the sizes of the entries actually stored in the LFU heap. -/
def lfuStoredSizeSum (a : LFUHeap) : Int :=
  (a.map (fun it => it.entry.size)).sum

end Gostc

namespace Gostc

/-! ## Compression manager (src/unnamed/part_004). -/

/-- The configuration fields read by the compression manager and the serve
    pipeline. -/
structure CompConfig where
  compression : Nat                 -- bit set: Gzip = 2, Brotli = 4
  compressionLevel : Int
  minSizeToCompress : Int
  compressTypes : List Str
deriving Repr

/-- `CompressionManager.GetCompressor`: the selected `CompressionType`
    (`NoCompression` exactly when the returned compressor is nil). -/
def getCompressor (cfg : CompConfig) (acceptEncoding : Str) : CompressionType :=
  let ae := toLowerStr acceptEncoding
  if cfg.compression.land Brotli ≠ 0 ∧ strContains ae "br".toList then Brotli
  else if cfg.compression.land Gzip ≠ 0 ∧
          (strContains ae "gzip".toList ∨ strContains ae "*".toList) then Gzip
  else NoCompression

/-- `CompressionManager.ShouldCompress`. -/
def shouldCompress (cfg : CompConfig) (contentType : Str) (size : Int) : Bool :=
  if size < cfg.minSizeToCompress then false
  else cfg.compressTypes.any fun ct => strContains contentType ct

/-- `getEncodingName`. -/
def getEncodingName (t : CompressionType) : Str :=
  if t = Gzip then "gzip".toList
  else if t = Brotli then "br".toList
  else []

/-! ## Cache-Control policy (`getCacheControl` / `getFileType`,
src/versioning_test.go lines 377–472). -/

inductive FileType where
  | staticAsset
  | dynamicAsset
  | immutableAsset
deriving Repr, DecidableEq

/-- The header-policy configuration fields. -/
structure CCConfig where
  staticAssetMaxAge : Nat
  dynamicAssetMaxAge : Nat
deriving Repr

def isStaticExtension (ext : Str) : Bool :=
  [".css", ".js", ".mjs", ".jpg", ".jpeg", ".png", ".gif", ".svg", ".webp"].any
    fun e => ext = e.toList

def staticExtsMap (ext : Str) : Bool :=
  [".jpg", ".jpeg", ".png", ".gif", ".svg", ".webp", ".ico", ".woff", ".woff2",
   ".ttf", ".otf", ".eot", ".mp4", ".webm", ".mp3", ".wav", ".pdf", ".zip",
   ".tar", ".gz"].any fun e => ext = e.toList

def staticButChangeableMap (ext : Str) : Bool :=
  [".css", ".js", ".mjs"].any fun e => ext = e.toList

def dynamicExtsMap (ext : Str) : Bool :=
  [".html", ".htm", ".json", ".xml", ".txt", ".md", ".yml", ".yaml", ".toml"].any
    fun e => ext = e.toList

/-- `getFileType`. -/
def getFileType (path : Str) : FileType :=
  let ext := toLowerStr (filepathExt path)
  let base := filepathBase path
  let parts := splitOnChar base '.'
  if parts.length ≥ 3 ∧ isStaticExtension ext then FileType.immutableAsset
  else if staticExtsMap ext then FileType.staticAsset
  else if staticButChangeableMap ext then FileType.staticAsset
  else if dynamicExtsMap ext then FileType.dynamicAsset
  else FileType.dynamicAsset

def immutableCacheControl : Str := "public, max-age=31536000, immutable".toList

/-- `getCacheControl`. -/
def getCacheControl (path : Str) (cfg : CCConfig) (isVersioned : Bool) : Str :=
  if isVersioned then immutableCacheControl
  else
    match getFileType path with
    | FileType.staticAsset =>
        "public, max-age=".toList ++ natToDec cfg.staticAssetMaxAge
    | FileType.immutableAsset => immutableCacheControl
    | FileType.dynamicAsset =>
        "public, max-age=".toList ++ natToDec cfg.dynamicAssetMaxAge ++
          ", must-revalidate".toList

end Gostc

namespace Gostc

/-- Go `[]byte(s)` for the ASCII strings exercised here. -/
def strBytes (s : Str) : List Nat := s.map Char.toNat

/-- The response assembled by `serveFileWithCompression` after the file has
    been read: headers as set on the writer, the body (absent for `HEAD` and
    304 responses), the store insertion if any, and the version index after
    the registration step. -/
structure ServeResult where
  status : Nat
  etagHeader : Str
  contentTypeHeader : Str
  cacheControlHeader : Str
  contentEncodingHeader : Option Str
  varyHeader : Option Str
  body : Option Str
  cacheInsert : Option (CacheKey × CacheEntry)
  avmAfter : AVM
deriving Repr

/-- `Server.serveFileWithCompression` (src/unnamed/part_001 lines 402–489)
    from the point where the file bytes are in hand: register the asset when
    versionable, generate the ETag and set all headers from it, short-circuit
    conditional requests, rewrite HTML (updating only the local `etag`
    variable used for the store entry), optionally compress, insert into the
    store, and emit.  The encoder itself is external code, passed in as
    `compressFn` (`none` models an encoder error); `compressorPresent` and
    `compressionType` are `GetCompressor`'s results; `imsNotModified` is the
    outcome of the `If-Modified-Since` comparison. -/
def serveFileTail (ccCfg : CCConfig) (compCfg : CompConfig)
    (enableVersioning : Bool) (avm : AVM)
    (data : Str) (contentType : Str) (fileSize : Int) (lastModified : Nat)
    (compressorPresent : Bool) (compressionType : CompressionType)
    (compressFn : Str → Option Str)
    (isVersioned : Bool) (originalPath urlPath : Str)
    (ifNoneMatch : Option Str) (imsNotModified : Bool)
    (method : Str) : ServeResult :=
  let avm1 :=
    if enableVersioning ∧ ¬isVersioned ∧ shouldVersionFile avm originalPath
    then registerAsset avm originalPath (strBytes data) else avm
  let etag := generateETag (strBytes data)
  let cc := getCacheControl urlPath ccCfg isVersioned
  if ifNoneMatch = some etag then
    { status := 304, etagHeader := etag, contentTypeHeader := contentType,
      cacheControlHeader := cc, contentEncodingHeader := none,
      varyHeader := none, body := none, cacheInsert := none, avmAfter := avm1 }
  else if imsNotModified then
    { status := 304, etagHeader := etag, contentTypeHeader := contentType,
      cacheControlHeader := cc, contentEncodingHeader := none,
      varyHeader := none, body := none, cacheInsert := none, avmAfter := avm1 }
  else
    let isHTML := contentType = "text/html".toList ∨
                  strContains contentType "text/html".toList
    let processedData :=
      if enableVersioning ∧ isHTML then processHTML avm1 data originalPath
      else data
    let etag2 :=
      if enableVersioning ∧ isHTML then generateETag (strBytes processedData)
      else etag
    let sc := compressorPresent ∧ compressionType ≠ NoCompression ∧
              shouldCompress compCfg contentType fileSize
    let mkEntry (bytes : Str) : CacheEntry :=
      { data := strBytes bytes, contentType := contentType, etag := etag2,
        lastModified := lastModified, createdAt := 0, accessCount := 0,
        size := (bytes.length : Int) }
    if sc then
      match compressFn processedData with
      | some compressed =>
          { status := 200, etagHeader := etag, contentTypeHeader := contentType,
            cacheControlHeader := cc,
            contentEncodingHeader := some (getEncodingName compressionType),
            varyHeader := some "Accept-Encoding".toList,
            body := if method = "HEAD".toList then none else some compressed,
            cacheInsert := some (⟨urlPath, compressionType, isVersioned⟩,
                                 mkEntry compressed),
            avmAfter := avm1 }
      | none =>
          { status := 200, etagHeader := etag, contentTypeHeader := contentType,
            cacheControlHeader := cc, contentEncodingHeader := none,
            varyHeader := none,
            body := if method = "HEAD".toList then none else some processedData,
            cacheInsert := none, avmAfter := avm1 }
    else
      { status := 200, etagHeader := etag, contentTypeHeader := contentType,
        cacheControlHeader := cc, contentEncodingHeader := none,
        varyHeader := none,
        body := if method = "HEAD".toList then none else some processedData,
        cacheInsert := some (⟨urlPath, NoCompression, isVersioned⟩,
                             mkEntry processedData),
        avmAfter := avm1 }

end Gostc

namespace Gostc

/-! ## Helper lemmas on the map model. -/

theorem mapLookup_mapInsert_self (m : StrMap) (k v : Str) :
    mapLookup (mapInsert m k v) k = some v := by
  unfold mapLookup mapInsert
  rw [List.find?_cons_of_pos _ (by simp)]
  rfl

theorem find?_filter_ne (m : StrMap) (k k' : Str) (h : k' ≠ k) :
    (m.filter (fun p => p.1 ≠ k)).find? (fun p => p.1 = k') =
      m.find? (fun p => p.1 = k') := by
  induction m with
  | nil => rfl
  | cons a m ih =>
      by_cases hak' : a.1 = k'
      · have hak : a.1 ≠ k := by rw [hak']; exact h
        rw [List.filter_cons, if_pos (by simpa using hak),
            List.find?_cons_of_pos _ (by simpa using hak'),
            List.find?_cons_of_pos _ (by simpa using hak')]
      · by_cases hak : a.1 = k
        · rw [List.filter_cons, if_neg (by simpa using hak), ih,
              List.find?_cons_of_neg _ (by simpa using hak')]
        · rw [List.filter_cons, if_pos (by simpa using hak),
              List.find?_cons_of_neg _ (by simpa using hak'),
              List.find?_cons_of_neg _ (by simpa using hak')]
          exact ih

theorem mapLookup_mapInsert_ne (m : StrMap) (k v k' : Str) (h : k' ≠ k) :
    mapLookup (mapInsert m k v) k' = mapLookup m k' := by
  unfold mapLookup mapInsert
  rw [List.find?_cons_of_neg _ (by simp; exact fun hh => h hh.symm),
      find?_filter_ne m k k' h]

/-! ## C1 and C2: the byte-budget accounting of the caches.

The failing workload is the one in the repository's own
`TestLRUCacheSizeLimit` (src/compression_test.go lines 310–345): a cache
with a 100-byte budget, a 5-byte entry, then a 200-byte entry. -/

def smallKey : CacheKey := ⟨"/small.txt".toList, NoCompression, false⟩
def largeKey : CacheKey := ⟨"/large.txt".toList, NoCompression, false⟩
def smallEntry : CacheEntry := ⟨[], [], [], 0, 0, 0, 5⟩
def largeEntry : CacheEntry := ⟨[], [], [], 0, 0, 0, 200⟩

/-- The LRU cache of `TestLRUCacheSizeLimit` after both `Set`s. -/
def lruSizeLimitState : LRUCache :=
  lruSet (lruSet (newLRUCache 100 300) smallKey smallEntry 10) largeKey largeEntry 11

/-- The LFU cache after the same workload. -/
def lfuSizeLimitState : LFUCache :=
  lfuSet (lfuSet (newLFUCache 100 300) smallKey smallEntry 10) largeKey largeEntry 11

/-- C1: after the second `Set` of the repository's own size-limit test
    workload (budget 100, entry sizes 5 then 200), the LRU store's accounted
    size is 205: it differs from the 200 bytes actually stored and exceeds
    the 100-byte budget, because `evictToSize` never subtracts the sizes of
    the entries it evicts and `Set` inserts the oversized entry anyway.  The
    claimed invariant `Stats().size == Σ stored entry sizes ≤ budget` is
    violated on both conjuncts. -/
theorem c1_size_accounting_violated :
    (lruStats lruSizeLimitState).size = 205 ∧
    storedSizeSum lruSizeLimitState.items = 200 ∧
    ¬ (lruStats lruSizeLimitState).size ≤ 100 ∧
    (lruStats lruSizeLimitState).size ≠ storedSizeSum lruSizeLimitState.items ∧
    (lfuStats lfuSizeLimitState).size = 200 ∧
    ¬ (lfuStats lfuSizeLimitState).size ≤ 100 := by
  decide

/-- C2: on the same workload — an entry (200 bytes) larger than the whole
    budget (100 bytes) — both caches insert the oversized entry rather than
    rejecting it: the following `Get` of the large key is a hit, and in the
    LRU cache the small entry was evicted to make room, so its `Get` is a
    miss.  This is the opposite of the repository's `TestLRUCacheSizeLimit`
    assertions and of the claim. -/
theorem c2_oversized_entry_inserted :
    (lruGet lruSizeLimitState largeKey 11).1 =
      some { largeEntry with createdAt := 11, accessCount := 1 } ∧
    (lruGet lruSizeLimitState smallKey 11).1 = none ∧
    (lfuGet lfuSizeLimitState largeKey 11).1 =
      some { largeEntry with createdAt := 11 } ∧
    lruLookup lruSizeLimitState.items largeKey =
      some { largeEntry with createdAt := 11 } := by
  decide

end Gostc

namespace Gostc

/-! ## C7: encoding negotiation. -/

/-- The selection policy as the spec words it: brotli when `br` appears in
    the (lowercased) `Accept-Encoding` value and brotli is enabled, else gzip
    when `gzip` or `*` appears and gzip is enabled, else identity. -/
def specChooseEncoding (brotliEnabled gzipEnabled : Bool) (ae : Str) :
    CompressionType :=
  if brotliEnabled ∧ strContains (toLowerStr ae) "br".toList then Brotli
  else if gzipEnabled ∧ (strContains (toLowerStr ae) "gzip".toList ∨
                         strContains (toLowerStr ae) "*".toList) then Gzip
  else NoCompression

/-- The compression configuration of `DefaultConfig`: both encodings
    enabled (`Gzip | Brotli`). -/
def defaultCompConfig : CompConfig :=
  { compression := Gzip.lor Brotli, compressionLevel := 6,
    minSizeToCompress := 1024,
    compressTypes := ["text/html", "text/css", "text/javascript",
      "application/javascript", "application/json", "application/xml",
      "text/xml", "text/plain", "image/svg+xml"].map String.toList }

/-- C7: `GetCompressor` implements exactly the spec's preference order with
    the enabled-bits read from the configuration, and on the spec's four
    boundary examples (with both encodings enabled) it selects brotli, gzip,
    identity and gzip respectively. -/
theorem c7_encoding_selection :
    (∀ (cfg : CompConfig) (ae : Str),
        getCompressor cfg ae =
          specChooseEncoding (cfg.compression.land Brotli ≠ 0)
            (cfg.compression.land Gzip ≠ 0) ae) ∧
    getCompressor defaultCompConfig "br, gzip".toList = Brotli ∧
    getCompressor defaultCompConfig "gzip, deflate".toList = Gzip ∧
    getCompressor defaultCompConfig "deflate".toList = NoCompression ∧
    getCompressor defaultCompConfig "*".toList = Gzip := by
  refine ⟨fun cfg ae => ?_, by decide, by decide, by decide, by decide⟩
  unfold getCompressor specChooseEncoding
  by_cases hb : cfg.compression.land Brotli ≠ 0 <;>
    by_cases hg : cfg.compression.land Gzip ≠ 0 <;>
      simp [hb, hg]

/-! ## C4: the Cache-Control policy. -/

/-- C4 counterexample: an unversioned `.css` request whose file name has
    three dot-separated parts receives the immutable header, not
    `public, max-age=<static_max_age>`, because `getFileType` classifies any
    `name.something.ext` with a static extension as an immutable asset. -/
theorem c4_counterexample :
    getCacheControl "/app.abc123.css".toList ⟨86400, 3600⟩ false =
      immutableCacheControl ∧
    getCacheControl "/app.abc123.css".toList ⟨86400, 3600⟩ false ≠
      "public, max-age=".toList ++ natToDec 86400 := by
  decide

/-- C4 (amended): a versioned-flavor response always carries
    `public, max-age=31536000, immutable`; an unversioned response whose
    lowercased extension is `.css`, `.js` or `.mjs` carries
    `public, max-age=<static_max_age>` provided its base name has fewer than
    three dot-separated parts (otherwise it is classified immutable). -/
theorem c4_cache_control_policy (path : Str) (cfg : CCConfig)
    (hext : toLowerStr (filepathExt path) = ".css".toList ∨
            toLowerStr (filepathExt path) = ".js".toList ∨
            toLowerStr (filepathExt path) = ".mjs".toList)
    (hparts : (splitOnChar (filepathBase path) '.').length < 3) :
    (∀ (p : Str) (c : CCConfig), getCacheControl p c true = immutableCacheControl) ∧
    getCacheControl path cfg false =
      "public, max-age=".toList ++ natToDec cfg.staticAssetMaxAge := by
  constructor
  · intro p c; rfl
  · have hlen : ¬ (3 ≤ (splitOnChar (filepathBase path) '.').length) := by omega
    rcases hext with hext | hext | hext <;>
      simp [getCacheControl, getFileType, hext, hlen, staticExtsMap,
            staticButChangeableMap, isStaticExtension]

/-- C4 witness: the amended policy evaluated at `/style.css` with the default
    max-ages. -/
theorem c4_cache_control_policy_witness :
    (∀ (p : Str) (c : CCConfig), getCacheControl p c true = immutableCacheControl) ∧
    getCacheControl "/style.css".toList ⟨86400, 3600⟩ false =
      "public, max-age=".toList ++ natToDec 86400 := by
  exact c4_cache_control_policy "/style.css".toList ⟨86400, 3600⟩
    (by decide) (by decide)

end Gostc

namespace Gostc

open Gostc.SHA256

/-! ## C8: shape of the generated versioned path and hash. -/

theorem sha256_length (msg : List Nat) : (sha256 msg).length = 32 := by
  simp [sha256, wordBytes]

theorem hexEncode_length (bs : List Nat) :
    (hexEncode bs).length = 2 * bs.length := by
  induction bs with
  | nil => rfl
  | cons b bs ih => simp [hexEncode] at ih ⊢; omega

/-- C8: `GenerateVersionedPath` hashes the literal content bytes with
    SHA-256, keeps the first `hash_length/2` digest bytes, and hex-encodes
    them to exactly `hash_length` characters (for the validated even lengths
    up to 64); the hash depends only on the bytes, so identical bytes give
    the identical hash on any path; and with no custom pattern the versioned
    path is `base + "." + hash + ext`. -/
theorem c8_generate_versioned_path (avm : AVM) (p q : Str) (b : List Nat)
    (hpat : avm.versioningPattern = [])
    (heven : avm.hashLength % 2 = 0) (hle : avm.hashLength ≤ 64) :
    generateVersionedPath avm p b =
      (trimSuffix p (filepathExt p) ++
         '.' :: hexEncode ((sha256 b).take (avm.hashLength / 2)) ++ filepathExt p,
       hexEncode ((sha256 b).take (avm.hashLength / 2))) ∧
    (hexEncode ((sha256 b).take (avm.hashLength / 2))).length = avm.hashLength ∧
    (generateVersionedPath avm q b).2 =
      hexEncode ((sha256 b).take (avm.hashLength / 2)) := by
  refine ⟨by simp [generateVersionedPath, hpat], ?_, by simp [generateVersionedPath]⟩
  rw [hexEncode_length, List.length_take, sha256_length]
  omega

/-- C8 witness: the default manager (hash length 16, no pattern) on
    `/static/app.css` with content bytes `[65]`. -/
theorem c8_generate_versioned_path_witness :
    generateVersionedPath (newAVM 16 [] true []) "/static/app.css".toList [65] =
      (trimSuffix "/static/app.css".toList (filepathExt "/static/app.css".toList) ++
         '.' :: hexEncode ((sha256 [65]).take ((newAVM 16 [] true []).hashLength / 2)) ++
         filepathExt "/static/app.css".toList,
       hexEncode ((sha256 [65]).take ((newAVM 16 [] true []).hashLength / 2))) ∧
    (hexEncode ((sha256 [65]).take ((newAVM 16 [] true []).hashLength / 2))).length =
      (newAVM 16 [] true []).hashLength ∧
    (generateVersionedPath (newAVM 16 [] true []) "/x.css".toList [65]).2 =
      hexEncode ((sha256 [65]).take ((newAVM 16 [] true []).hashLength / 2)) :=
  c8_generate_versioned_path (newAVM 16 [] true []) "/static/app.css".toList
    "/x.css".toList [65] (by decide) (by decide) (by decide)

/-! ## C3: the register round trip. -/

/-- C3: for a versionable path `p`, registering content `b` makes the index
    map `p` to its versioned path, map that versioned path back to `p`, and
    record the truncated content hash of `b` for `p`. -/
theorem c3_register_round_trip (avm : AVM) (p : Str) (b : List Nat)
    (hv : shouldVersionFile avm p = true) :
    getVersionedPath (registerAsset avm p b) p =
      some (generateVersionedPath avm p b).1 ∧
    getOriginalPath (registerAsset avm p b) (generateVersionedPath avm p b).1 =
      some p ∧
    getContentHash (registerAsset avm p b) p =
      some (hexEncode ((sha256 b).take (avm.hashLength / 2))) := by
  refine ⟨?_, ?_, ?_⟩
  · simp [getVersionedPath, registerAsset, mapLookup_mapInsert_self]
  · simp [getOriginalPath, registerAsset, mapLookup_mapInsert_self]
  · have : (generateVersionedPath avm p b).2 =
        hexEncode ((sha256 b).take (avm.hashLength / 2)) := by
      simp [generateVersionedPath]
    simp [getContentHash, registerAsset, mapLookup_mapInsert_self, ← this]

/-- C3 witness: the default manager on `/static/app.css` with content `[65]`. -/
theorem c3_register_round_trip_witness :
    getVersionedPath (registerAsset (newAVM 16 [] true []) "/static/app.css".toList [65])
        "/static/app.css".toList =
      some (generateVersionedPath (newAVM 16 [] true []) "/static/app.css".toList [65]).1 ∧
    getOriginalPath (registerAsset (newAVM 16 [] true []) "/static/app.css".toList [65])
        (generateVersionedPath (newAVM 16 [] true []) "/static/app.css".toList [65]).1 =
      some "/static/app.css".toList ∧
    getContentHash (registerAsset (newAVM 16 [] true []) "/static/app.css".toList [65])
        "/static/app.css".toList =
      some (hexEncode ((sha256 [65]).take ((newAVM 16 [] true []).hashLength / 2))) :=
  c3_register_round_trip (newAVM 16 [] true []) "/static/app.css".toList [65] (by decide)

end Gostc

namespace Gostc

open Gostc.SHA256

/-! ## C9: re-registration and the stale inverse entry. -/

/-- The default version manager used in the C9 scenario. -/
def c9avm : AVM := newAVM 16 [] true []

/-- The versioned path of `/static/a.css` for content `[65]` under `c9avm`
    (`"/static/a.559aead08264d579.css"`). -/
def c9vp1 : Str := (generateVersionedPath c9avm "/static/a.css".toList [65]).1

set_option maxRecDepth 1000000 in
/-- C9 counterexample: register `/static/a.css` with content `[65]`, then
    re-register it with content `[66]`.  The old versioned path still
    resolves through the inverse lookup — `RegisterAsset` never removes the
    stale inverse entry — contradicting the claim that after re-registration
    the old versioned path no longer resolves. -/
theorem c9_counterexample :
    getOriginalPath
        (registerAsset (registerAsset c9avm "/static/a.css".toList [65])
          "/static/a.css".toList [66]) c9vp1 =
      some "/static/a.css".toList ∧
    getVersionedPath
        (registerAsset (registerAsset c9avm "/static/a.css".toList [65])
          "/static/a.css".toList [66]) "/static/a.css".toList ≠ some c9vp1 := by
  decide

theorem mapLookup_double_insert (m : StrMap) (v1 v2 p : Str) :
    mapLookup (mapInsert (mapInsert m v1 p) v2 p) v1 = some p := by
  by_cases h : v1 = v2
  · subst h; exact mapLookup_mapInsert_self _ _ _
  · rw [mapLookup_mapInsert_ne _ _ _ _ h, mapLookup_mapInsert_self]

/-- C9 (amended): re-registering a logical path overwrites the
    logical→versioned and logical→hash entries and adds the new inverse
    entry, but the stale inverse entry is NOT removed: the old versioned
    path still resolves to the logical path. -/
theorem c9_reregistration_keeps_stale_inverse (avm : AVM) (p : Str)
    (b1 b2 : List Nat) :
    getVersionedPath (registerAsset (registerAsset avm p b1) p b2) p =
      some (generateVersionedPath avm p b2).1 ∧
    getOriginalPath (registerAsset (registerAsset avm p b1) p b2)
        (generateVersionedPath avm p b2).1 = some p ∧
    getContentHash (registerAsset (registerAsset avm p b1) p b2) p =
      some (generateVersionedPath avm p b2).2 ∧
    getOriginalPath (registerAsset (registerAsset avm p b1) p b2)
        (generateVersionedPath avm p b1).1 = some p := by
  have hg2 : generateVersionedPath (registerAsset avm p b1) p b2 =
      generateVersionedPath avm p b2 := by
    simp [registerAsset, generateVersionedPath]
  refine ⟨?_, ?_, ?_, ?_⟩
  · show mapLookup (mapInsert (registerAsset avm p b1).versionedPaths p
        (generateVersionedPath (registerAsset avm p b1) p b2).1) p =
      some (generateVersionedPath avm p b2).1
    rw [mapLookup_mapInsert_self, hg2]
  · show mapLookup (mapInsert (registerAsset avm p b1).originalPaths
        (generateVersionedPath (registerAsset avm p b1) p b2).1 p)
        (generateVersionedPath avm p b2).1 = some p
    rw [hg2, mapLookup_mapInsert_self]
  · show mapLookup (mapInsert (registerAsset avm p b1).contentHashes p
        (generateVersionedPath (registerAsset avm p b1) p b2).2) p =
      some (generateVersionedPath avm p b2).2
    rw [mapLookup_mapInsert_self, hg2]
  · show mapLookup (mapInsert (registerAsset avm p b1).originalPaths
        (generateVersionedPath (registerAsset avm p b1) p b2).1 p)
        (generateVersionedPath avm p b1).1 = some p
    rw [hg2]
    show mapLookup (mapInsert (mapInsert avm.originalPaths
        (generateVersionedPath avm p b1).1 p) (generateVersionedPath avm p b2).1 p)
        (generateVersionedPath avm p b1).1 = some p
    exact mapLookup_double_insert _ _ _ _

end Gostc

namespace Gostc

/-! ## C5: HTML rewrite versus the response ETag.

The serve pipeline generates the ETag and sets the `ETag` response header
*before* it runs the HTML rewriter; the regenerated ETag (the code comments
"Update ETag after HTML processing since content changed") only reaches the
store entry, never the already-set header.  The scenario below serves
`/index.html` over its logical path with versioning enabled and one
registered asset, so the rewriter really changes the bytes. -/

/-- Version manager with `/static/app.js` registered (as the serve pipeline
    itself does on first access to the asset). -/
def c5avm : AVM :=
  registerAsset (newAVM 16 [] true [])
    "/static/app.js".toList (strBytes "console.log('hi');".toList)

/-- The HTML in `/index.html`. -/
def c5data : Str := "<script src=\"/static/app.js\"></script>".toList

/-- The serve-pipeline result for `GET /index.html` (logical path,
    versioning on, no compression negotiated, no conditional headers). -/
def c5result : ServeResult :=
  serveFileTail ⟨86400, 3600⟩ defaultCompConfig true c5avm
    c5data "text/html".toList (c5data.length : Int) 0
    false NoCompression (fun _ => none)
    false "/index.html".toList "/index.html".toList none false "GET".toList

set_option maxRecDepth 1000000 in
/-- C5: the rewriter does change the served bytes (the body is the rewritten
    HTML, produced before compression), but the `ETag` header carried by the
    response is the hash of the *pre-rewrite* bytes, not of the rewritten
    bytes; only the store entry receives the regenerated ETag.  This
    contradicts the claim (and the code's own comment) that the response
    ETag is regenerated from the rewritten bytes. -/
theorem c5_etag_not_regenerated :
    c5result.body = some (processHTML c5avm c5data "/index.html".toList) ∧
    processHTML c5avm c5data "/index.html".toList ≠ c5data ∧
    c5result.etagHeader = generateETag (strBytes c5data) ∧
    c5result.etagHeader ≠
      generateETag (strBytes (processHTML c5avm c5data "/index.html".toList)) ∧
    (c5result.cacheInsert.map (fun p => p.2.etag)) =
      some (generateETag
        (strBytes (processHTML c5avm c5data "/index.html".toList))) := by
  decide

end Gostc

namespace Gostc

/-! ## Permutation facts about the heap operations (for C10). -/

open scoped List

theorem get_cons_set_perm {α : Type} (xs : List α) (k : Nat) (x y : α)
    (h : xs[k]? = some y) : y :: xs.set k x ~ x :: xs := by
  induction xs generalizing k with
  | nil => simp at h
  | cons z zs ih =>
      cases k with
      | zero =>
          simp only [List.getElem?_cons_zero, Option.some.injEq] at h
          subst h
          simp only [List.set_cons_zero]
          exact List.Perm.swap x z zs
      | succ m =>
          simp only [List.getElem?_cons_succ] at h
          simp only [List.set_cons_succ]
          have h1 : y :: z :: zs.set m x ~ z :: y :: zs.set m x :=
            List.Perm.swap z y _
          have h2 : z :: y :: zs.set m x ~ z :: x :: zs :=
            List.Perm.cons z (ih m h)
          have h3 : z :: x :: zs ~ x :: z :: zs := List.Perm.swap x z zs
          exact (h1.trans h2).trans h3

theorem set_set_perm {α : Type} (l : List α) (i j : Nat) (x y : α)
    (hi : l[i]? = some x) (hj : l[j]? = some y) :
    (l.set i y).set j x ~ l := by
  induction l generalizing i j with
  | nil => simp at hi
  | cons z zs ih =>
      cases i with
      | zero =>
          simp only [List.getElem?_cons_zero, Option.some.injEq] at hi
          subst hi
          cases j with
          | zero =>
              simp only [List.getElem?_cons_zero, Option.some.injEq] at hj
              subst hj
              simp only [List.set_cons_zero]
              exact List.Perm.refl _
          | succ m =>
              simp only [List.getElem?_cons_succ] at hj
              simp only [List.set_cons_zero, List.set_cons_succ]
              exact get_cons_set_perm zs m z y hj
      | succ m =>
          cases j with
          | zero =>
              simp only [List.getElem?_cons_zero, Option.some.injEq] at hj
              subst hj
              simp only [List.getElem?_cons_succ] at hi
              simp only [List.set_cons_succ, List.set_cons_zero]
              exact get_cons_set_perm zs m z x hi
          | succ n =>
              simp only [List.getElem?_cons_succ] at hi hj
              simp only [List.set_cons_succ]
              exact List.Perm.cons z (ih m n hi hj)

theorem swapL_perm (a : LFUHeap) (i j : Nat) : swapL a i j ~ a := by
  unfold swapL
  cases hi : a.get? i with
  | none => exact List.Perm.refl a
  | some x =>
      cases hj : a.get? j with
      | none => exact List.Perm.refl a
      | some y =>
          simp only [List.get?_eq_getElem?] at hi hj
          exact set_set_perm a i j x y hi hj

theorem downAux_perm (f : Nat) (a : LFUHeap) (i n : Nat) :
    (downAux a i n f).1 ~ a := by
  induction f generalizing a i with
  | zero => exact List.Perm.refl a
  | succ f ih =>
      unfold downAux
      by_cases h1 : 2 * i + 1 ≥ n
      · simp only [h1, if_true]
        exact List.Perm.refl a
      · simp only [h1, if_false]
        by_cases h2 : lessF a (if 2 * i + 1 + 1 < n ∧ lessF a (2 * i + 1 + 1) (2 * i + 1)
            then 2 * i + 1 + 1 else 2 * i + 1) i
        · simp only [h2, if_true]
          exact (ih _ _).trans (swapL_perm a i _)
        · simp only [h2, if_false]
          exact List.Perm.refl a

theorem upAux_perm (f : Nat) (a : LFUHeap) (j : Nat) : upAux a j f ~ a := by
  induction f generalizing a j with
  | zero => exact List.Perm.refl a
  | succ f ih =>
      unfold upAux
      by_cases h1 : (j - 1) / 2 = j ∨ ¬ lessF a j ((j - 1) / 2)
      · simp only [h1, if_true]
        exact List.Perm.refl a
      · simp only [h1, if_false]
        exact (ih _ _).trans (swapL_perm a _ j)

theorem heapFix_perm (a : LFUHeap) (i : Nat) : heapFix a i ~ a := by
  unfold heapFix
  by_cases h : (downAux a i a.length a.length).2 > i
  · simp only [h, if_true]
    exact downAux_perm _ _ _ _
  · simp only [h, if_false]
    exact (upAux_perm _ _ _).trans (downAux_perm _ _ _ _)

theorem heapPush_perm (a : LFUHeap) (x : LFUItem) :
    heapPush a x ~ a ++ [x] := upAux_perm _ _ _

theorem heapPop_mem (a : LFUHeap) (y : LFUItem) (h : y ∈ (heapPop a).2) :
    y ∈ a := by
  unfold heapPop at h
  have h1 := List.Sublist.mem h (List.dropLast_sublist _)
  have h2 := (downAux_perm (a.length - 1) (swapL a 0 (a.length - 1)) 0
    (a.length - 1)).mem_iff.mp h1
  exact (swapL_perm a 0 (a.length - 1)).mem_iff.mp h2

theorem evictLFU_mem (c : LFUCache) (y : LFUItem) (h : y ∈ (evictLFU c).heap) :
    y ∈ c.heap := by
  unfold evictLFU at h
  by_cases hl : c.heap.length = 0
  · simpa [hl] using h
  · simp only [hl, if_false] at h
    cases hp : (heapPop c.heap).1 with
    | some item => rw [hp] at h; exact heapPop_mem _ _ h
    | none => rw [hp] at h; exact heapPop_mem _ _ h

theorem lfuEvictLoopF_mem (sz : Int) (f : Nat) (c : LFUCache) (y : LFUItem)
    (h : y ∈ (lfuEvictLoopF sz f c).heap) : y ∈ c.heap := by
  induction f generalizing c with
  | zero => exact h
  | succ f ih =>
      unfold lfuEvictLoopF at h
      by_cases hc : c.currentSize + sz > c.maxSize ∧ c.heap.length > 0
      · simp only [hc, if_true] at h
        exact evictLFU_mem _ _ (ih _ h)
      · simpa [hc] using h

theorem find?_key_of_unique (l : LFUHeap) (k : CacheKey) (x : LFUItem)
    (hx : x ∈ l) (hk : x.key = k)
    (huniq : ∀ y ∈ l, y.key = k → y = x) :
    l.find? (fun it => it.key = k) = some x := by
  induction l with
  | nil => simp at hx
  | cons z zs ih =>
      by_cases hz : z.key = k
      · rw [List.find?_cons_of_pos _ (by simpa using hz)]
        exact congrArg some (huniq z (List.mem_cons_self z zs) hz)
      · rw [List.find?_cons_of_neg _ (by simpa using hz)]
        rcases List.mem_cons.mp hx with hzx | hxs
        · exact absurd (hzx ▸ hk) hz
        · exact ih hxs (fun y hy hyk => huniq y (List.mem_cons_of_mem z hy) hyk)

/-- In a heap whose keys are pairwise distinct, every element of
    `l.set i item'` whose key is the key stored at position `i` is `item'`
    itself. -/
theorem key_unique_in_set (l : LFUHeap) (i : Nat) (old item' : LFUItem)
    (k : CacheKey)
    (hnd : (l.map (fun it => it.key)).Nodup)
    (hi : l[i]? = some old) (hold : old.key = k) (hitem : item'.key = k) :
    ∀ y ∈ l.set i item', y.key = k → y = item' := by
  induction l generalizing i with
  | nil => intro y hy; simp at hy
  | cons z zs ih =>
      simp only [List.map_cons, List.nodup_cons] at hnd
      cases i with
      | zero =>
          simp only [List.getElem?_cons_zero, Option.some.injEq] at hi
          subst hi
          intro y hy hyk
          simp only [List.set_cons_zero, List.mem_cons] at hy
          rcases hy with rfl | hy
          · rfl
          · exfalso
            exact hnd.1 (hold ▸ hyk ▸ List.mem_map_of_mem (fun it => it.key) hy)
      | succ m =>
          simp only [List.getElem?_cons_succ] at hi
          intro y hy hyk
          simp only [List.set_cons_succ, List.mem_cons] at hy
          rcases hy with rfl | hy
          · exfalso
            have : old ∈ zs := List.get?_mem (by simpa using hi)
            have : k ∈ zs.map (fun it => it.key) :=
              hold ▸ List.mem_map_of_mem (fun it => it.key) this
            exact hnd.1 (hyk ▸ this)
          · exact ih m hnd.2 hi y hy hyk

/-- The entry the LFU cache stores under a key (the `items` map lookup). -/
def lfuEntryFor (a : LFUHeap) (k : CacheKey) : Option CacheEntry :=
  (a.find? (fun it => it.key = k)).map (fun it => it.entry)

theorem lruLookup_lruAdd (items : LRUItems) (k : CacheKey) (v : CacheEntry) :
    lruLookup (lruAdd items k v) k = some v := by
  unfold lruAdd
  by_cases h : ((k, v) :: lruErase items k).length > lruCapacity
  · simp only [h, if_true]
    cases herase : lruErase items k with
    | nil => rw [herase] at h; simp [lruCapacity] at h
    | cons q qs =>
        show lruLookup ((k, v) :: (q :: qs).dropLast) k = some v
        unfold lruLookup
        rw [List.find?_cons_of_pos _ (by simp)]
        rfl
  · simp only [h, if_false]
    unfold lruLookup
    rw [List.find?_cons_of_pos _ (by simp)]
    rfl

/-- The LFU update branch: replacing the item at the position of `k` and
    re-heapifying leaves exactly the replacement as the entry stored for the
    key. -/
theorem lfuEntryFor_update (a : LFUHeap) (i : Nat) (old item' : LFUItem)
    (k : CacheKey)
    (hnd : (a.map (fun it => it.key)).Nodup)
    (hi : a[i]? = some old) (holdk : old.key = k) (hik : item'.key = k) :
    lfuEntryFor (heapFix (a.set i item') i) k = some item'.entry := by
  have hlt : i < a.length := by
    by_contra hge
    rw [List.getElem?_eq_none (by omega)] at hi
    exact absurd hi (by simp)
  have hperm := heapFix_perm (a.set i item') i
  have hlt' : i < (a.set i item').length := by simpa using hlt
  have hmemset : item' ∈ a.set i item' := by
    have h1 : (a.set i item')[i] ∈ a.set i item' := List.getElem_mem hlt'
    rwa [List.getElem_set_self] at h1
  unfold lfuEntryFor
  rw [find?_key_of_unique _ k item' (hperm.mem_iff.mpr hmemset) hik
    (fun y hy hyk =>
      key_unique_in_set a i old item' k hnd hi holdk hik y
        (hperm.mem_iff.mp hy) hyk)]
  rfl

/-- The LFU insert branch: pushing a fresh item whose key no surviving item
    carries makes it the entry stored for the key. -/
theorem lfuEntryFor_push (a : LFUHeap) (item : LFUItem) (k : CacheKey)
    (hik : item.key = k) (hnok : ∀ y ∈ a, y.key ≠ k) :
    lfuEntryFor (heapPush a item) k = some item.entry := by
  have hperm := heapPush_perm a item
  unfold lfuEntryFor
  rw [find?_key_of_unique _ k item
    (hperm.mem_iff.mpr (List.mem_append_right _ (List.mem_singleton.mpr rfl)))
    hik
    (by
      intro y hy hyk
      rcases List.mem_append.mp (hperm.mem_iff.mp hy) with hy1 | hy2
      · exact absurd hyk (hnok y hy1)
      · exact List.mem_singleton.mp hy2)]
  rfl

/-- C10: `Set` on both cache implementations stores the caller's entry with
    its `CreatedAt` field overwritten by the current instant (the caller's
    value is discarded), so TTL expiry is measured from insertion time. -/
theorem c10_set_overwrites_created_at (cL : LRUCache) (cF : LFUCache)
    (k : CacheKey) (e : CacheEntry) (now : Nat)
    (hnd : (cF.heap.map (fun it => it.key)).Nodup) :
    lruLookup (lruSet cL k e now).items k = some { e with createdAt := now } ∧
    lfuEntryFor (lfuSet cF k e now).heap k = some { e with createdAt := now } := by
  constructor
  · unfold lruSet
    cases h2 : lruLookup (if cL.currentSize + e.size > cL.maxSize then
        evictToSize cL (cL.maxSize - e.size) else cL).items k with
    | none => simp only [h2]; exact lruLookup_lruAdd _ _ _
    | some old => simp only [h2]; exact lruLookup_lruAdd _ _ _
  · unfold lfuSet
    cases hidx : lfuFindIdx cF.heap k with
    | none =>
        simp only [hidx]
        have hnok : ∀ y ∈ cF.heap, y.key ≠ k := by
          intro y hy
          have := List.findIdx?_eq_none_iff.mp hidx y hy
          simpa using this
        have hnok' : ∀ y ∈ (lfuEvictLoop cF e.size).heap, y.key ≠ k := fun y hy =>
          hnok y (lfuEvictLoopF_mem _ _ _ _ hy)
        exact lfuEntryFor_push _ ⟨k, { e with createdAt := now }, 1⟩ k rfl hnok'
    | some i =>
        simp only [hidx]
        obtain ⟨hlt, hp, -⟩ := List.findIdx?_eq_some_iff_getElem.mp hidx
        have hget : cF.heap.get? i = some (cF.heap.get ⟨i, hlt⟩) := by
          simp [List.get?_eq_getElem?, List.getElem?_eq_getElem hlt]
        cases h3 : cF.heap.get? i with
        | none => rw [h3] at hget; exact absurd hget (by simp)
        | some old =>
            simp only [h3]
            have holdk : old.key = k := by
              rw [h3] at hget
              have hoe : old = cF.heap.get ⟨i, hlt⟩ := by simpa using hget
              subst hoe
              simpa using hp
            have hi' : cF.heap[i]? = some old := by
              simpa [List.get?_eq_getElem?] using h3
            exact lfuEntryFor_update cF.heap i old _ k hnd hi' holdk holdk

/-- C10 witness: empty caches, a concrete key and an entry claiming
    `CreatedAt = 99`, inserted at instant 7: both caches store it with
    `CreatedAt = 7`. -/
theorem c10_set_overwrites_created_at_witness :
    lruLookup (lruSet (newLRUCache 100 300) smallKey ⟨[], [], [], 0, 99, 0, 5⟩ 7).items
        smallKey = some { (⟨[], [], [], 0, 99, 0, 5⟩ : CacheEntry) with createdAt := 7 } ∧
    lfuEntryFor (lfuSet (newLFUCache 100 300) smallKey ⟨[], [], [], 0, 99, 0, 5⟩ 7).heap
        smallKey = some { (⟨[], [], [], 0, 99, 0, 5⟩ : CacheEntry) with createdAt := 7 } :=
  c10_set_overwrites_created_at (newLRUCache 100 300) (newLFUCache 100 300)
    smallKey ⟨[], [], [], 0, 99, 0, 5⟩ 7 (by decide)

end Gostc

namespace Gostc

/-! ## C6: idempotence of the HTML rewriter.

Toolkit lemmas about `hasPrefix`, `takeWhile`/`dropWhile` and the link
matcher, leading to the main induction. -/

/-- The shape of a link-pattern match followed by arbitrary text. -/
def mkMatch (a u g r : Str) : Str :=
  a ++ '=' :: '"' :: (u ++ '"' :: (g ++ '>' :: r))

theorem matchText_append_rest (m : HMatch) :
    matchText m ++ m.rest = mkMatch m.attr m.url m.gap m.rest := by
  simp [matchText, mkMatch]

theorem hasPrefix_append_self (p t : Str) : hasPrefix p (p ++ t) = true := by
  induction p with
  | nil => rfl
  | cons c cs ih => simp [hasPrefix, ih]

theorem hasPrefix_exists (p s : Str) (h : hasPrefix p s = true) :
    s = p ++ s.drop p.length := by
  induction p generalizing s with
  | nil => simp
  | cons c cs ih =>
      cases s with
      | nil => simp [hasPrefix] at h
      | cons d ds =>
          simp only [hasPrefix, Bool.and_eq_true, decide_eq_true_eq] at h
          obtain ⟨rfl, h2⟩ := h
          simpa using ih ds h2

theorem hasPrefix_append_left (p w t : Str) (h : p.length ≤ w.length) :
    hasPrefix p (w ++ t) = hasPrefix p w := by
  induction p generalizing w with
  | nil => simp [hasPrefix]
  | cons c cs ih =>
      cases w with
      | nil => simp at h
      | cons d ds =>
          simp only [List.cons_append, hasPrefix, List.append_eq]
          rw [ih ds (by simpa using h)]

theorem drop_takeWhile_eq_dropWhile (p : Char → Bool) (s : Str) :
    s.drop (s.takeWhile p).length = s.dropWhile p := by
  induction s with
  | nil => rfl
  | cons c cs ih =>
      by_cases h : p c
      · simp [List.takeWhile_cons, List.dropWhile_cons, h, ih]
      · simp [List.takeWhile_cons, List.dropWhile_cons, h]

theorem dropWhile_ne_nil_of_exists (p : Char → Bool) (s : Str) (c : Char)
    (hc : c ∈ s) (hpc : p c = false) : s.dropWhile p ≠ [] := by
  induction s with
  | nil => simp at hc
  | cons d ds ih =>
      rcases List.mem_cons.mp hc with rfl | hmem
      · simp [List.dropWhile_cons, hpc]
      · by_cases hd : p d
        · simpa [List.dropWhile_cons, hd] using ih hmem
        · simp [List.dropWhile_cons, hd]

theorem dropWhile_head_false (p : Char → Bool) (s : Str)
    (h : s.dropWhile p ≠ []) :
    ∃ c t, s.dropWhile p = c :: t ∧ p c = false := by
  induction s with
  | nil => simp at h
  | cons d ds ih =>
      by_cases hd : p d
      · rw [List.dropWhile_cons, if_pos hd] at h ⊢
        exact ih h
      · refine ⟨d, ds, ?_, by simpa using hd⟩
        rw [List.dropWhile_cons, if_neg hd]

theorem takeWhile_append_of_stop (p : Char → Bool) (w z : Str)
    (h : w.dropWhile p ≠ []) :
    (w ++ z).takeWhile p = w.takeWhile p ∧
    (w ++ z).dropWhile p = w.dropWhile p ++ z := by
  induction w with
  | nil => simp at h
  | cons d ds ih =>
      by_cases hd : p d
      · rw [List.dropWhile_cons, if_pos hd] at h
        obtain ⟨h1, h2⟩ := ih h
        constructor
        · simp [List.takeWhile_cons, hd, h1]
        · simp [List.dropWhile_cons, hd, h2]
      · constructor
        · simp [List.takeWhile_cons, hd]
        · simp [List.dropWhile_cons, hd]

theorem takeWhile_append_all (p : Char → Bool) (w : Str) (c : Char) (z : Str)
    (hall : ∀ x ∈ w, p x = true) (hc : p c = false) :
    (w ++ c :: z).takeWhile p = w ∧
    (w ++ c :: z).dropWhile p = c :: z := by
  induction w with
  | nil => simp [List.takeWhile_cons, List.dropWhile_cons, hc]
  | cons d ds ih =>
      have hd : p d = true := hall d (List.mem_cons_self d ds)
      obtain ⟨h1, h2⟩ := ih (fun x hx => hall x (List.mem_cons_of_mem d hx))
      constructor
      · simp [List.takeWhile_cons, hd, h1]
      · simp [List.dropWhile_cons, hd, h2]

end Gostc

namespace Gostc

theorem tryAttr_append (a0 t : Str) :
    tryAttr a0 ((a0 ++ ['=', '"']) ++ t) =
      match t.dropWhile (fun c => c ≠ '"') with
      | [] => none
      | _ :: s3 =>
          if hasRegexExt (t.takeWhile (fun c => c ≠ '"')) then
            match s3.dropWhile (fun c => c ≠ '>') with
            | [] => none
            | _ :: rest =>
                some ⟨a0, t.takeWhile (fun c => c ≠ '"'),
                      s3.takeWhile (fun c => c ≠ '>'), rest⟩
          else none := by
  have hdrop : ((a0 ++ ['=', '"']) ++ t).drop (a0.length + 2) = t := by
    rw [show a0.length + 2 = (a0 ++ ['=', '"']).length by simp]
    exact List.drop_left _ _
  unfold tryAttr
  rw [if_pos (hasPrefix_append_self _ _)]
  simp only [hdrop, drop_takeWhile_eq_dropWhile]

theorem tryAttr_construct (a0 u g r : Str)
    (hu : ∀ c ∈ u, c ≠ '"') (hext : hasRegexExt u = true)
    (hg : ∀ c ∈ g, c ≠ '>') :
    tryAttr a0 (mkMatch a0 u g r) = some ⟨a0, u, g, r⟩ := by
  have hm : mkMatch a0 u g r =
      (a0 ++ ['=', '"']) ++ (u ++ '"' :: (g ++ '>' :: r)) := by
    simp [mkMatch]
  rw [hm, tryAttr_append]
  obtain ⟨ht, hd⟩ := takeWhile_append_all (fun c => decide (c ≠ '"')) u '"'
    (g ++ '>' :: r) (fun x hx => by simpa using hu x hx) (by simp)
  obtain ⟨ht2, hd2⟩ := takeWhile_append_all (fun c => decide (c ≠ '>')) g '>'
    r (fun x hx => by simpa using hg x hx) (by simp)
  rw [ht, hd]
  split
  · rename_i heq
    simp at heq
  · rename_i q s3 heq
    injection heq with heq1 heq2
    subst heq2
    rw [if_pos hext]
    split
    · rename_i heq2
      rw [hd2] at heq2
      simp at heq2
    · rename_i w rest heq2
      rw [hd2] at heq2
      injection heq2 with heq3 heq4
      subst heq4
      rw [ht2]

theorem tryAttr_decomp (a0 s : Str) (m : HMatch) (h : tryAttr a0 s = some m) :
    m.attr = a0 ∧ s = mkMatch a0 m.url m.gap m.rest ∧
    (∀ c ∈ m.url, c ≠ '"') ∧ hasRegexExt m.url = true ∧
    (∀ c ∈ m.gap, c ≠ '>') := by
  by_cases hpre : hasPrefix (a0 ++ ['=', '"']) s = true
  · have hs : s = (a0 ++ ['=', '"']) ++ s.drop (a0.length + 2) := by
      have := hasPrefix_exists _ _ hpre
      simpa using this
    rw [hs, tryAttr_append] at h
    set t := s.drop (a0.length + 2) with ht
    clear_value t
    split at h
    · exact absurd h (by simp)
    · rename_i q s3 heq
      split at h
      · rename_i hext
        split at h
        · exact absurd h (by simp)
        · rename_i w rest heq2
          injection h with h
          subst h
          have hq : q = '"' := by
            obtain ⟨c, t', hct, hcf⟩ :=
              dropWhile_head_false _ t (by rw [heq]; simp)
            rw [heq] at hct
            injection hct with hc1 _
            subst hc1
            simpa using hcf
          have hw : w = '>' := by
            obtain ⟨c, t', hct, hcf⟩ :=
              dropWhile_head_false _ s3 (by rw [heq2]; simp)
            rw [heq2] at hct
            injection hct with hc1 _
            subst hc1
            simpa using hcf
          subst hq
          subst hw
          refine ⟨rfl, ?_, ?_, hext, ?_⟩
          · have h1 : t = t.takeWhile (fun c => decide (c ≠ '"')) ++
                '"' :: s3 := by
              rw [← heq]
              exact (List.takeWhile_append_dropWhile _ _).symm
            have h2 : s3 = s3.takeWhile (fun c => decide (c ≠ '>')) ++
                '>' :: rest := by
              rw [← heq2]
              exact (List.takeWhile_append_dropWhile _ _).symm
            rw [hs, mkMatch]
            conv_lhs => rw [h1, h2]
            simp
          · intro c hc
            simpa using List.mem_takeWhile_imp hc
          · intro c hc
            simpa using List.mem_takeWhile_imp hc
      · exact absurd h (by simp)
  · unfold tryAttr at h
    rw [if_neg hpre] at h
    exact absurd h (by simp)

theorem matchAt_eq_none_iff (s : Str) :
    matchAt s = none ↔
      tryAttr "href".toList s = none ∧ tryAttr "src".toList s = none := by
  unfold matchAt
  cases h : tryAttr "href".toList s <;> simp [h]

theorem matchAt_construct (a u g r : Str)
    (ha : a = "href".toList ∨ a = "src".toList)
    (hu : ∀ c ∈ u, c ≠ '"') (hext : hasRegexExt u = true)
    (hg : ∀ c ∈ g, c ≠ '>') :
    matchAt (mkMatch a u g r) = some ⟨a, u, g, r⟩ := by
  rcases ha with rfl | rfl
  · unfold matchAt
    rw [tryAttr_construct _ _ _ _ hu hext hg]
  · unfold matchAt
    have hnone : tryAttr "href".toList (mkMatch "src".toList u g r) = none := by
      unfold tryAttr
      rw [if_neg (by simp [mkMatch, hasPrefix])]
    rw [hnone, tryAttr_construct _ _ _ _ hu hext hg]

theorem matchAt_decomp (s : Str) (m : HMatch) (h : matchAt s = some m) :
    (m.attr = "href".toList ∨ m.attr = "src".toList) ∧
    s = mkMatch m.attr m.url m.gap m.rest ∧
    (∀ c ∈ m.url, c ≠ '"') ∧ hasRegexExt m.url = true ∧
    (∀ c ∈ m.gap, c ≠ '>') := by
  unfold matchAt at h
  cases hh : tryAttr "href".toList s with
  | some m' =>
      rw [hh] at h
      injection h with h
      subst h
      obtain ⟨h1, h2⟩ := tryAttr_decomp _ _ _ hh
      exact ⟨Or.inl h1, h1 ▸ h2.1, h2.2⟩
  | none =>
      rw [hh] at h
      obtain ⟨h1, h2⟩ := tryAttr_decomp _ _ _ h
      exact ⟨Or.inr h1, h1 ▸ h2.1, h2.2⟩

end Gostc

namespace Gostc

theorem matchAt_rest_length (s : Str) (m : HMatch) (h : matchAt s = some m) :
    m.rest.length < s.length := by
  obtain ⟨-, hs, -⟩ := matchAt_decomp _ _ h
  rw [hs, mkMatch]
  simp
  omega

theorem replaceLoopF_fuel (vp : StrMap) (f : Nat) (s : Str) (hf : s.length ≤ f) :
    replaceLoopF vp f s = replaceLoopF vp s.length s := by
  induction f using Nat.strong_induction_on generalizing s with
  | _ f ih =>
      cases f with
      | zero =>
          have hs : s = [] := List.eq_nil_of_length_eq_zero (Nat.le_zero.mp hf)
          subst hs
          rfl
      | succ f =>
          cases s with
          | nil => rfl
          | cons c cs =>
              have hcs : cs.length ≤ f := by simpa using hf
              simp only [List.length_cons, replaceLoopF]
              cases hm : matchAt (c :: cs) with
              | some m =>
                  have hr : m.rest.length ≤ cs.length := by
                    have := matchAt_rest_length _ _ hm
                    simp at this
                    omega
                  simp only [ih f (Nat.lt_succ_self f) m.rest (le_trans hr hcs),
                      ih cs.length (Nat.lt_succ_of_le hcs) m.rest hr]
              | none =>
                  simp only [ih f (Nat.lt_succ_self f) cs hcs,
                      ih cs.length (Nat.lt_succ_of_le hcs) cs (le_refl _)]

/-- The evaluation rule of `ReplaceAllStringFunc`: rewrite the leftmost match
    and resume after it, or keep the head character and move on. -/
theorem replaceAllFunc_cons (vp : StrMap) (c : Char) (cs : Str) :
    replaceAllFunc vp (c :: cs) =
      match matchAt (c :: cs) with
      | some m => processAssetReference vp (matchText m) ++ replaceAllFunc vp m.rest
      | none => c :: replaceAllFunc vp cs := by
  unfold replaceAllFunc
  simp only [List.length_cons, replaceLoopF]
  cases hm : matchAt (c :: cs) with
  | some m =>
      have hr : m.rest.length ≤ cs.length := by
        have := matchAt_rest_length _ _ hm
        simp at this
        omega
      simp only [replaceLoopF_fuel _ _ _ hr]
  | none => rfl

end Gostc

namespace Gostc

theorem quote_mem_drop (w : Str) (n : Nat) (h : n < w.length + 1) :
    '"' ∈ (w ++ ['"']).drop n := by
  rw [List.drop_append_of_le_length (by omega)]
  exact List.mem_append_right _ (by simp)

/-- Replacing the text after a shared block `W` that still contains the
    opening quote of the candidate match cannot create a match where there
    was none: the scan reads the URL and extension entirely inside `W`, and
    a successful extension test would have completed the original match
    (its tail contains a `>`). -/
theorem tryAttr_tail_irrelevant (a0 W tu tv : Str)
    (hWq : '"' ∈ W.drop (a0.length + 2))
    (hgt : '>' ∈ tu)
    (hnone : tryAttr a0 (W ++ tu) = none) :
    tryAttr a0 (W ++ tv) = none := by
  have hd : a0.length + 2 < W.length := by
    by_contra hge
    push_neg at hge
    rw [List.drop_eq_nil_of_le hge] at hWq
    simp at hWq
  by_cases hpre : hasPrefix (a0 ++ ['=', '"']) W = true
  · have hW : W = (a0 ++ ['=', '"']) ++ W.drop (a0.length + 2) := by
      have := hasPrefix_exists _ _ hpre
      simpa using this
    set W' := W.drop (a0.length + 2) with hW'
    clear_value W'
    have hWu : W ++ tu = (a0 ++ ['=', '"']) ++ (W' ++ tu) := by
      rw [hW]; simp
    have hWv : W ++ tv = (a0 ++ ['=', '"']) ++ (W' ++ tv) := by
      rw [hW]; simp
    rw [hWu, tryAttr_append] at hnone
    rw [hWv, tryAttr_append]
    have hne : W'.dropWhile (fun c => decide (c ≠ '"')) ≠ [] :=
      dropWhile_ne_nil_of_exists _ _ '"' hWq (by simp)
    obtain ⟨htk, hdr⟩ := takeWhile_append_of_stop (fun c => decide (c ≠ '"')) W' tu hne
    obtain ⟨htk2, hdr2⟩ := takeWhile_append_of_stop (fun c => decide (c ≠ '"')) W' tv hne
    obtain ⟨q, W'', hqW, hqf⟩ := dropWhile_head_false _ _ hne
    rw [htk, hdr, hqW] at hnone
    rw [htk2, hdr2, hqW]
    by_cases hext : hasRegexExt (W'.takeWhile (fun c => decide (c ≠ '"'))) = true
    · exfalso
      have hgt' : '>' ∈ W'' ++ tu := List.mem_append_right _ hgt
      have hne2 : (W'' ++ tu).dropWhile (fun c => decide (c ≠ '>')) ≠ [] :=
        dropWhile_ne_nil_of_exists _ _ '>' hgt' (by simp)
      obtain ⟨w, rest, hwr, hwf⟩ := dropWhile_head_false _ _ hne2
      simp only [decide_not] at hext hwr
      simp [hext, hwr] at hnone
    · simp only [decide_not] at hext
      simp [hext]
  · unfold tryAttr
    rw [if_neg (by
      rw [hasPrefix_append_left _ _ _ (by simp; omega)]
      exact hpre)]

end Gostc

namespace Gostc

theorem gt_mem_tail (u g r : Str) : '>' ∈ u ++ '"' :: (g ++ '>' :: r) := by
  refine List.mem_append_right _ (List.mem_cons_of_mem _ ?_)
  exact List.mem_append_right _ (List.mem_cons_self _ _)

theorem pre_mkMatch_eq (pre a u g r : Str) :
    pre ++ mkMatch a u g r =
      (pre ++ (a ++ ['=', '"'])) ++ (u ++ '"' :: (g ++ '>' :: r)) := by
  simp [mkMatch]

/-- Replacing the URL of a complete match does not create a match at any
    position strictly before the match. -/
theorem tryAttr_replace_none (a0 : Str)
    (ha0 : a0 = "href".toList ∨ a0 = "src".toList)
    (pre a u v g r : Str) (ha : a = "href".toList ∨ a = "src".toList)
    (hu : ∀ c ∈ u, c ≠ '"') (hext : hasRegexExt u = true)
    (hg : ∀ c ∈ g, c ≠ '>')
    (hnone : tryAttr a0 (pre ++ mkMatch a u g r) = none) :
    tryAttr a0 (pre ++ mkMatch a v g r) = none := by
  have hconstr : pre = [] → a = a0 → False := by
    intro hp haa
    subst hp
    subst haa
    have hc := tryAttr_construct a u g r hu hext hg
    rw [List.nil_append] at hnone
    rw [hc] at hnone
    exact absurd hnone (by simp)
  have happly : '"' ∈ (pre ++ (a ++ ['=', '"'])).drop (a0.length + 2) →
      tryAttr a0 (pre ++ mkMatch a v g r) = none := by
    intro hq
    rw [pre_mkMatch_eq] at hnone
    rw [pre_mkMatch_eq]
    exact tryAttr_tail_irrelevant a0 (pre ++ (a ++ ['=', '"'])) _ _ hq
      (gt_mem_tail u g r) hnone
  have hqshape : (pre ++ (a ++ ['=', '"'])) = (pre ++ a ++ ['=']) ++ ['"'] := by
    simp
  rcases ha0 with rfl | rfl <;> rcases ha with rfl | rfl
  · -- href / href
    cases pre with
    | nil => exact (hconstr rfl rfl).elim
    | cons p pre' =>
        refine happly ?_
        rw [hqshape]
        apply quote_mem_drop
        simp
  · -- the scanned attribute is href but the match is src: with at most one
    -- character before the match the prefix test fails outright
    cases pre with
    | nil =>
        unfold tryAttr
        rw [if_neg (by
          simp [mkMatch, hasPrefix,
            show ("src".toList : Str) = ['s', 'r', 'c'] from rfl,
            show ("href".toList : Str) = ['h', 'r', 'e', 'f'] from rfl])]
    | cons p pre' =>
        cases pre' with
        | nil =>
            unfold tryAttr
            rw [if_neg (by
              simp [mkMatch, hasPrefix,
                show ("src".toList : Str) = ['s', 'r', 'c'] from rfl,
                show ("href".toList : Str) = ['h', 'r', 'e', 'f'] from rfl])]
        | cons p2 pre'' =>
            refine happly ?_
            rw [hqshape]
            apply quote_mem_drop
            simp
  · -- src / href: the shared block always extends past the scan window
    refine happly ?_
    rw [hqshape]
    apply quote_mem_drop
    simp
  · -- src / src
    cases pre with
    | nil => exact (hconstr rfl rfl).elim
    | cons p pre' =>
        refine happly ?_
        rw [hqshape]
        apply quote_mem_drop
        simp

end Gostc

namespace Gostc

theorem quote_mem_drop2 (w z : Str) (n : Nat) (h : n ≤ w.length) :
    '"' ∈ (w ++ '"' :: z).drop n := by
  rw [List.drop_append_of_le_length h]
  exact List.mem_append_right _ (List.mem_cons_self _ _)

theorem mkMatch_append (a u g r : Str) :
    mkMatch a u g r = mkMatch a u g [] ++ r := by
  simp [mkMatch]

theorem gt_mem_mkMatch (a u g r : Str) : '>' ∈ mkMatch a u g r := by
  unfold mkMatch
  exact List.mem_append_right _
    (List.mem_cons_of_mem _ (List.mem_cons_of_mem _ (gt_mem_tail u g r)))

theorem matchAt_nil : matchAt ([] : Str) = none := by decide

/-- Replacing the URL of a complete match creates no match at any position
    up to the match start, for either attribute alternative. -/
theorem matchAt_replace_none (pre a u v g r : Str)
    (ha : a = "href".toList ∨ a = "src".toList)
    (hu : ∀ c ∈ u, c ≠ '"') (hext : hasRegexExt u = true)
    (hg : ∀ c ∈ g, c ≠ '>')
    (hnone : matchAt (pre ++ mkMatch a u g r) = none) :
    matchAt (pre ++ mkMatch a v g r) = none := by
  rw [matchAt_eq_none_iff] at hnone ⊢
  exact ⟨tryAttr_replace_none _ (Or.inl rfl) pre a u v g r ha hu hext hg hnone.1,
    tryAttr_replace_none _ (Or.inr rfl) pre a u v g r ha hu hext hg hnone.2⟩

/-- Replacing the text after a complete match block cannot create a match at
    any position up to the block, provided the original tail contains a `>`
    (otherwise the original scan would also have run off the end). -/
theorem tryAttr_after_match (a0 : Str)
    (ha0 : a0 = "href".toList ∨ a0 = "src".toList)
    (pre a v g tu tv : Str) (ha : a = "href".toList ∨ a = "src".toList)
    (hgt : '>' ∈ tu)
    (hnone : tryAttr a0 ((pre ++ mkMatch a v g []) ++ tu) = none) :
    tryAttr a0 ((pre ++ mkMatch a v g []) ++ tv) = none := by
  have h4 : ("href".toList : Str).length = 4 := rfl
  have h3 : ("src".toList : Str).length = 3 := rfl
  have hWs : pre ++ mkMatch a v g [] =
      (pre ++ a ++ '=' :: '"' :: v) ++ '"' :: (g ++ ['>']) := by
    simp [mkMatch]
  by_cases hlen : a0.length + 2 ≤ (pre ++ a ++ '=' :: '"' :: v).length
  · refine tryAttr_tail_irrelevant a0 _ tu tv ?_ hgt hnone
    rw [hWs]
    exact quote_mem_drop2 _ _ _ hlen
  · rcases ha0 with rfl | rfl <;> rcases ha with rfl | rfl
    · exact absurd (by simp only [List.length_append, List.length_cons, h4]; omega) hlen
    · -- the scanned attribute is `href` but the block's is `src`: the window
      -- misses the closing quote only when nothing precedes the block and
      -- the URL is empty, and then the prefix test fails on the first char
      simp only [List.length_append, List.length_cons, h4, h3] at hlen
      have hpre0 : pre.length = 0 := by omega
      have hv0 : v.length = 0 := by omega
      rw [List.length_eq_zero] at hpre0 hv0
      subst hpre0
      subst hv0
      unfold tryAttr
      rw [if_neg (by
        simp [mkMatch, hasPrefix,
          show ("src".toList : Str) = ['s', 'r', 'c'] from rfl,
          show ("href".toList : Str) = ['h', 'r', 'e', 'f'] from rfl])]
    · exact absurd (by simp only [List.length_append, List.length_cons, h4, h3]; omega) hlen
    · exact absurd (by simp only [List.length_append, List.length_cons, h3]; omega) hlen

theorem matchAt_after_match (pre a v g tu tv : Str)
    (ha : a = "href".toList ∨ a = "src".toList) (hgt : '>' ∈ tu)
    (hnone : matchAt ((pre ++ mkMatch a v g []) ++ tu) = none) :
    matchAt ((pre ++ mkMatch a v g []) ++ tv) = none := by
  rw [matchAt_eq_none_iff] at hnone ⊢
  exact ⟨tryAttr_after_match _ (Or.inl rfl) pre a v g tu tv ha hgt hnone.1,
    tryAttr_after_match _ (Or.inr rfl) pre a v g tu tv ha hgt hnone.2⟩

/-- Text without `>` contains no match, so the rewrite keeps it unchanged. -/
theorem replaceAllFunc_no_gt (vp : StrMap) (s : Str) (h : '>' ∉ s) :
    replaceAllFunc vp s = s := by
  induction s with
  | nil => rfl
  | cons c cs ih =>
      rw [replaceAllFunc_cons]
      cases hm : matchAt (c :: cs) with
      | some m =>
          obtain ⟨-, hs, -⟩ := matchAt_decomp _ _ hm
          have hmem : '>' ∈ c :: cs := by
            rw [hs]
            exact gt_mem_mkMatch m.attr m.url m.gap m.rest
          exact absurd hmem h
      | none =>
          show c :: replaceAllFunc vp cs = c :: cs
          rw [ih (fun hc => h (List.mem_cons_of_mem _ hc))]

theorem replaceAllFunc_eq_match (vp : StrMap) (s : Str) (m : HMatch)
    (h : matchAt s = some m) :
    replaceAllFunc vp s =
      processAssetReference vp (matchText m) ++ replaceAllFunc vp m.rest := by
  cases s with
  | nil => rw [matchAt_nil] at h; exact absurd h (by simp)
  | cons c cs =>
      rw [replaceAllFunc_cons]
      simp only [h]

theorem matchText_eq_mkMatch (m : HMatch) :
    matchText m = mkMatch m.attr m.url m.gap [] := by
  simp [matchText, mkMatch]

theorem findSubmatch_mkMatch (a u g : Str)
    (ha : a = "href".toList ∨ a = "src".toList)
    (hu : ∀ c ∈ u, c ≠ '"') (hext : hasRegexExt u = true)
    (hg : ∀ c ∈ g, c ≠ '>') :
    findSubmatch (mkMatch a u g []) = some (a, u) := by
  have hm := matchAt_construct a u g [] ha hu hext hg
  cases hs : mkMatch a u g [] with
  | nil =>
      exfalso
      have hmem := gt_mem_mkMatch a u g []
      rw [hs] at hmem
      simp at hmem
  | cons c cs =>
      rw [hs] at hm
      simp only [findSubmatch, hm]

theorem strReplaceFirst_prefix (pat t rep : Str) (hne : pat ≠ []) :
    strReplaceFirst (pat ++ t) pat rep = rep ++ t := by
  cases pat with
  | nil => exact absurd rfl hne
  | cons p ps =>
      rw [List.cons_append]
      simp only [strReplaceFirst]
      have hp : hasPrefix (p :: ps) (p :: (ps ++ t)) = true :=
        hasPrefix_append_self (p :: ps) t
      rw [if_pos hp]
      congr 1
      rw [← List.cons_append, List.drop_left]

/-- `processAssetReference` on the text of a well-formed match substitutes
    the URL's mapping when the index has one and keeps the text otherwise. -/
theorem processAssetReference_mkMatch (vp : StrMap) (a u g : Str)
    (ha : a = "href".toList ∨ a = "src".toList)
    (hu : ∀ c ∈ u, c ≠ '"') (hext : hasRegexExt u = true)
    (hg : ∀ c ∈ g, c ≠ '>') :
    processAssetReference vp (mkMatch a u g []) =
      mkMatch a ((mapLookup vp u).getD u) g [] := by
  unfold processAssetReference
  simp only [findSubmatch_mkMatch a u g ha hu hext hg]
  cases hlv : mapLookup vp u with
  | none => simp
  | some v =>
      simp only [Option.getD_some]
      have hsplit : mkMatch a u g [] =
          (a ++ '=' :: '"' :: u ++ ['"']) ++ (g ++ ['>']) := by
        simp [mkMatch]
      rw [hsplit, strReplaceFirst_prefix _ _ _
        (by rcases ha with rfl | rfl <;> simp)]
      simp [mkMatch]

end Gostc

namespace Gostc

/-- Fuel-indexed form of the no-new-match scan lemma: the global rewrite of
    `s` never creates a match at a position inside a prefix `pre` where the
    original text `pre ++ s` had none. -/
theorem matchAt_replaceAllFunc_noneAux (vp : StrMap) :
    ∀ n (s pre : Str), s.length ≤ n → matchAt (pre ++ s) = none →
      matchAt (pre ++ replaceAllFunc vp s) = none := by
  intro n
  induction n with
  | zero =>
      intro s pre hl h
      have hs : s = [] := List.eq_nil_of_length_eq_zero (Nat.le_zero.mp hl)
      subst hs
      exact h
  | succ n ih =>
      intro s pre hl h
      cases s with
      | nil => exact h
      | cons c cs =>
          cases hm : matchAt (c :: cs) with
          | none =>
              have hr : replaceAllFunc vp (c :: cs) = c :: replaceAllFunc vp cs := by
                rw [replaceAllFunc_cons, hm]
              rw [hr]
              have h' : matchAt ((pre ++ [c]) ++ cs) = none := by
                rw [List.append_assoc]
                exact h
              have hres := ih cs (pre ++ [c]) (by simpa using hl) h'
              rw [List.append_assoc] at hres
              exact hres
          | some m =>
              obtain ⟨hattr, hs, hu, hext, hg⟩ := matchAt_decomp _ _ hm
              have hr : replaceAllFunc vp (c :: cs) =
                  mkMatch m.attr ((mapLookup vp m.url).getD m.url) m.gap [] ++
                    replaceAllFunc vp m.rest := by
                rw [replaceAllFunc_eq_match vp _ _ hm, matchText_eq_mkMatch,
                  processAssetReference_mkMatch vp m.attr m.url m.gap hattr hu hext hg]
              rw [hr]
              rw [hs] at h
              have hA : matchAt (pre ++ mkMatch m.attr
                  ((mapLookup vp m.url).getD m.url) m.gap m.rest) = none :=
                matchAt_replace_none pre _ _ _ _ _ hattr hu hext hg h
              by_cases hgt : '>' ∈ m.rest
              · rw [mkMatch_append, ← List.append_assoc] at hA
                have hB := matchAt_after_match pre m.attr
                    ((mapLookup vp m.url).getD m.url) m.gap m.rest
                    (replaceAllFunc vp m.rest) hattr hgt hA
                rw [← List.append_assoc]
                exact hB
              · rw [replaceAllFunc_no_gt vp m.rest hgt, ← mkMatch_append]
                exact hA

theorem matchAt_replaceAllFunc_none (vp : StrMap) (s pre : Str)
    (h : matchAt (pre ++ s) = none) :
    matchAt (pre ++ replaceAllFunc vp s) = none :=
  matchAt_replaceAllFunc_noneAux vp s.length s pre (le_refl _) h

/-- The side condition under which the rewrite is idempotent: every versioned
    path in the index is quote-free, still carries an extension the link
    pattern accepts (so the rewritten attribute re-matches), and is not
    itself a key of the index. -/
def goodMap (vp : StrMap) : Bool :=
  vp.all fun kv =>
    kv.2.all (fun c => c ≠ '"') && hasRegexExt kv.2 &&
      (mapLookup vp kv.2).isNone

theorem mapLookup_mem (m : StrMap) (k v : Str) (h : mapLookup m k = some v) :
    (k, v) ∈ m := by
  unfold mapLookup at h
  rw [Option.map_eq_some'] at h
  obtain ⟨p, hp1, hp2⟩ := h
  have hm := List.mem_of_find?_eq_some hp1
  have hpk := List.find?_some hp1
  simp only [decide_eq_true_eq] at hpk
  cases p with
  | mk k' v' =>
      simp only at hpk hp2
      subst hpk
      subst hp2
      exact hm

theorem goodMap_spec (vp : StrMap) (hgood : goodMap vp = true) (u v : Str)
    (h : mapLookup vp u = some v) :
    (∀ c ∈ v, c ≠ '"') ∧ hasRegexExt v = true ∧ mapLookup vp v = none := by
  have hm := mapLookup_mem vp u v h
  unfold goodMap at hgood
  rw [List.all_eq_true] at hgood
  have hv := hgood _ hm
  simp only [Bool.and_eq_true, List.all_eq_true, decide_eq_true_eq,
    Option.isNone_iff_eq_none] at hv
  exact ⟨fun c hc => hv.1.1 c hc, hv.1.2, hv.2⟩

/-- Fuel-indexed idempotence of the global rewrite under `goodMap`. -/
theorem replaceAllFunc_idemAux (vp : StrMap) (hgood : goodMap vp = true) :
    ∀ n (s : Str), s.length ≤ n →
      replaceAllFunc vp (replaceAllFunc vp s) = replaceAllFunc vp s := by
  intro n
  induction n with
  | zero =>
      intro s hl
      have hs : s = [] := List.eq_nil_of_length_eq_zero (Nat.le_zero.mp hl)
      subst hs
      rfl
  | succ n ih =>
      intro s hl
      cases s with
      | nil => rfl
      | cons c cs =>
          cases hm : matchAt (c :: cs) with
          | none =>
              have hr : replaceAllFunc vp (c :: cs) = c :: replaceAllFunc vp cs := by
                rw [replaceAllFunc_cons, hm]
              have hnone2 : matchAt (c :: replaceAllFunc vp cs) = none := by
                have := matchAt_replaceAllFunc_none vp cs [c] (by simpa using hm)
                simpa using this
              have hr2 : replaceAllFunc vp (c :: replaceAllFunc vp cs) =
                  c :: replaceAllFunc vp (replaceAllFunc vp cs) := by
                rw [replaceAllFunc_cons, hnone2]
              rw [hr, hr2, ih cs (by simpa using hl)]
          | some m =>
              obtain ⟨hattr, hs, hu, hext, hg⟩ := matchAt_decomp _ _ hm
              have hr : replaceAllFunc vp (c :: cs) =
                  mkMatch m.attr ((mapLookup vp m.url).getD m.url) m.gap [] ++
                    replaceAllFunc vp m.rest := by
                rw [replaceAllFunc_eq_match vp _ _ hm, matchText_eq_mkMatch,
                  processAssetReference_mkMatch vp m.attr m.url m.gap hattr hu hext hg]
              obtain ⟨hq, hx, hn⟩ : (∀ c ∈ (mapLookup vp m.url).getD m.url, c ≠ '"') ∧
                  hasRegexExt ((mapLookup vp m.url).getD m.url) = true ∧
                  mapLookup vp ((mapLookup vp m.url).getD m.url) = none := by
                cases hlv : mapLookup vp m.url with
                | none =>
                    simp only [Option.getD_none]
                    exact ⟨hu, hext, hlv⟩
                | some v =>
                    simp only [Option.getD_some]
                    exact goodMap_spec vp hgood _ _ hlv
              have hrl : m.rest.length ≤ n := by
                have hlt := matchAt_rest_length _ _ hm
                simp only [List.length_cons] at hlt hl
                omega
              rw [hr, ← mkMatch_append]
              have hmm2 := matchAt_construct m.attr ((mapLookup vp m.url).getD m.url)
                m.gap (replaceAllFunc vp m.rest) hattr hq hx hg
              rw [replaceAllFunc_eq_match vp _ _ hmm2]
              simp only [matchText_eq_mkMatch]
              rw [processAssetReference_mkMatch vp m.attr
                ((mapLookup vp m.url).getD m.url) m.gap hattr hq hx hg]
              simp only [hn, Option.getD_none]
              rw [ih m.rest hrl, ← mkMatch_append]

theorem replaceAllFunc_idempotent (vp : StrMap) (hgood : goodMap vp = true)
    (s : Str) :
    replaceAllFunc vp (replaceAllFunc vp s) = replaceAllFunc vp s :=
  replaceAllFunc_idemAux vp hgood s.length s (le_refl _)

end Gostc

namespace Gostc

/-- Version manager state reached by registering `/static/a.css` and then
    registering the resulting versioned path itself: the index then maps a
    versioned path to a further versioned path. -/
def c6avm : AVM :=
  registerAsset (registerAsset c9avm "/static/a.css".toList [65]) c9vp1 [66]

/-- The HTML input of the C6 counterexample. -/
def c6html : Str := "<link href=\"/static/a.css\">".toList

set_option maxRecDepth 1000000 in
/-- C6 counterexample: on the chained state `c6avm` — reachable by two
    `RegisterAsset` calls — `ProcessHTML` rewrites `/static/a.css` to its
    versioned path on the first pass, and the second pass rewrites that
    versioned path again (it is itself a key of the index), so applying the
    rewriter twice differs from applying it once. -/
theorem c6_counterexample :
    processHTML c6avm (processHTML c6avm c6html "/".toList) "/".toList ≠
      processHTML c6avm c6html "/".toList := by
  decide

/-- C6 (amended): applying the rewriter twice gives the same result as
    applying it once, provided every versioned path in the index is
    quote-free, carries an extension accepted by the link pattern, and is not
    itself a key of the index (`goodMap`); without that proviso the claim
    fails on states reachable by chained registrations. -/
theorem c6_process_html_idempotent (avm : AVM) (h bp : Str)
    (hgood : goodMap avm.versionedPaths = true) :
    processHTML avm (processHTML avm h bp) bp = processHTML avm h bp := by
  unfold processHTML
  cases he : avm.enableVersioning with
  | false => simp
  | true => simp [replaceAllFunc_idempotent avm.versionedPaths hgood]

/-- A single-entry version index satisfying `goodMap`. -/
def c6wavm : AVM :=
  { versionedPaths :=
      [("/static/app.css".toList, "/static/app.deadbeef.css".toList)],
    originalPaths := [], contentHashes := [], hashLength := 16,
    versioningPattern := [], enableVersioning := true, staticPrefixes := [] }

set_option maxRecDepth 1000000 in
/-- C6 witness: the amended idempotence applied to a concrete well-formed
    index and a concrete link. -/
theorem c6_process_html_idempotent_witness :
    goodMap c6wavm.versionedPaths = true ∧
      processHTML c6wavm
          (processHTML c6wavm "<link href=\"/static/app.css\">".toList
            "/".toList) "/".toList =
        processHTML c6wavm "<link href=\"/static/app.css\">".toList
          "/".toList :=
  ⟨by decide, c6_process_html_idempotent c6wavm
    "<link href=\"/static/app.css\">".toList "/".toList (by decide)⟩

end Gostc
